import Mathlib

/-!
Verification of the Sudoku solver/validator (`SudokuSolver.cpp`).

The C++ program is shallowly embedded: the 9x9 `int board[9][9]` becomes a
function `Nat → Nat → Int`, the per-cell `set<int>* possibilities[9][9]`
becomes a function `Nat → Nat → Option (List Int)` (a `std::set<int>` built
from `{1..9}` and only ever shrunk by in-order erasure is exactly a strictly
ascending list), and in-place mutation becomes explicit state passing.
`solve`'s unbounded `while` loop and recursion are given explicit fuel
(`none` = fuel exhausted); a theorem below shows fuel `82` always suffices,
mirroring the source's implicit termination argument.
-/

namespace SudokuSolver

/-- The 9x9 board of `int` cell values (`board[row][col]`), 0 meaning blank.
Only indices below 9 are ever read or written by the embedded code. -/
abbrev Board := Nat → Nat → Int

/-- `board[r][c] = v`, everything else unchanged. -/
def setCell (b : Board) (r c : Nat) (v : Int) : Board :=
  fun r' c' => if r' = r ∧ c' = c then v else b r' c'

/-- The `enum class RowOrCol` of the source. -/
inductive RowOrCol
  | ROW
  | COL

/-- The duplicate scan shared by `isRowOrColOk` and `isSubmatrixOk`: walk the
unit's values keeping the `set<int> values` of non-zero entries seen so far;
the first value whose `insert` fails (it is already in the set) is returned,
`none` when the whole unit passes.  Zero values are skipped. -/
def checkVals : List Int → List Int → Option Int
  | [], _ => none
  | v :: rest, seen =>
    if v ≠ 0 then
      if v ∈ seen then some v
      else checkVals rest (v :: seen)
    else checkVals rest seen

/-- The 9 values read by `isRowOrColOk`: row `row` when `which == ROW`,
column `row` when `which == COL` (the source's index-swap trick). -/
def rowColCells (b : Board) (row : Nat) (which : RowOrCol) : List Int :=
  (List.range 9).map (fun col =>
    match which with
    | RowOrCol.ROW => b row col
    | RowOrCol.COL => b col row)

/-- `SudokuPuzzle::isRowOrColOk`. -/
def isRowOrColOk (b : Board) (row : Nat) (which : RowOrCol) : Bool :=
  (checkVals (rowColCells b row which) []).isNone

/-- The 9 values of the 3x3 submatrix with inclusive start indices
`(startRowIdx, startColIdx)`, in the row-major order the source scans them. -/
def boxCells (b : Board) (startRowIdx startColIdx : Nat) : List Int :=
  ((List.range 3).map (fun dr =>
    (List.range 3).map (fun dc => b (startRowIdx + dr) (startColIdx + dc)))).flatten

/-- `SudokuPuzzle::isSubmatrixOk`. -/
def isSubmatrixOk (b : Board) (startRowIdx startColIdx : Nat) : Bool :=
  (checkVals (boxCells b startRowIdx startColIdx) []).isNone

/-- `SudokuPuzzle::areSubmatricesOk`: the nine boxes at start indices
0, 3, 6. -/
def areSubmatricesOk (b : Board) : Bool :=
  [0, 3, 6].all (fun sr => [0, 3, 6].all (fun sc => isSubmatrixOk b sr sc))

/-- `SudokuPuzzle::isSolutionValid`: all 9 rows, then all 9 columns, then the
submatrices, with the source's early-return short-circuiting. -/
def isSolutionValid (b : Board) : Bool :=
  ((List.range 9).all (fun row => isRowOrColOk b row RowOrCol.ROW)) &&
  ((List.range 9).all (fun col => isRowOrColOk b col RowOrCol.COL)) &&
  areSubmatricesOk b

/-- `SudokuPuzzle::wouldWork`: write `value` at `(atRow, atCol)`, check that
cell's row, column and submatrix, then write 0 back.  The mutation is
modelled by returning the final board alongside the result; every return
path of the source restores the cell to 0, so the returned board is the same
in all cases and the `&&` chain matches the early returns. -/
def wouldWork (b : Board) (value : Int) (atRow atCol : Nat) : Bool × Board :=
  let b1 := setCell b atRow atCol value
  (isRowOrColOk b1 atRow RowOrCol.ROW &&
     isRowOrColOk b1 atCol RowOrCol.COL &&
     isSubmatrixOk b1 (3 * (atRow / 3)) (3 * (atCol / 3)),
   setCell b1 atRow atCol 0)

/-- The mutable state of a `SudokuPuzzle` object: the board, the per-cell
candidate sets (`nullptr` = `none`), and the three MRV-tracking members. -/
structure Puzzle where
  board : Board
  poss : Nat → Nat → Option (List Int)
  minPossibilities : Nat
  minRow : Nat
  minCol : Nat

/-- The constructor `SudokuPuzzle(const int[9][9])`: copy the board, all
possibility pointers null, MRV trackers at their invalid sentinels. -/
def mkPuzzle (b : Board) : Puzzle :=
  { board := b, poss := fun _ _ => none,
    minPossibilities := 10, minRow := 10, minCol := 10 }

/-- The freshly allocated `new set<int> {1,...,9}`. -/
def allNine : List Int := [1, 2, 3, 4, 5, 6, 7, 8, 9]

/-- `SudokuPuzzle::setAllPossibilities`: for every cell with row and column
below 9, a full candidate set when the cell is blank, null otherwise. -/
def setAllPossibilities (p : Puzzle) : Puzzle :=
  { p with poss := fun r c =>
      if r < 9 ∧ c < 9 then (if p.board r c = 0 then some allNine else none)
      else p.poss r c }

/-- `possibilities[r][c] = o`, everything else unchanged. -/
def updPoss (f : Nat → Nat → Option (List Int)) (r c : Nat)
    (o : Option (List Int)) : Nat → Nat → Option (List Int) :=
  fun r' c' => if r' = r ∧ c' = c then o else f r' c'

/-- The candidate-erasing loop inside `trimPossibilities` for one cell:
each candidate in set order is tested with `wouldWork` against the board as
left by the previous test (the board is threaded through, since `wouldWork`
mutates and restores it), failures are erased. -/
def trimFilter (b : Board) (r c : Nat) : List Int → List Int × Board
  | [] => ([], b)
  | v :: rest =>
    let wb := wouldWork b v r c
    let fr := trimFilter wb.2 r c rest
    if wb.1 then (v :: fr.1, fr.2) else fr

/-- One cell's slice of the `trimPossibilities` double loop, acting on the
running `numBlank` counter.  The returned `Bool` is `false` exactly on the
source's early `return -1` (empty candidate set). -/
def trimCell (p : Puzzle) (r c : Nat) (numBlank : Nat) : Bool × Puzzle × Nat :=
  match p.poss r c with
  | none => (true, p, numBlank)
  | some s =>
    let fb := trimFilter p.board r c s
    match fb.1 with
    | [] =>
      (false, { p with board := fb.2, poss := updPoss p.poss r c (some []) },
       numBlank)
    | [v] =>
      (true,
       { p with board := setCell fb.2 r c v, poss := updPoss p.poss r c none },
       numBlank)
    | s' =>
      if s'.length < p.minPossibilities then
        (true,
         { p with board := fb.2, poss := updPoss p.poss r c (some s'), minPossibilities := s'.length, minRow := r, minCol := c },
         numBlank + 1)
      else
        (true, { p with board := fb.2, poss := updPoss p.poss r c (some s') },
         numBlank + 1)

/-- The 81 cells in the row-major order of the source's nested loops. -/
def allCells : List (Nat × Nat) :=
  ((List.range 9).map (fun r => (List.range 9).map (fun c => (r, c)))).flatten

/-- The double loop of `trimPossibilities`, with the early `return -1`. -/
def trimGo : List (Nat × Nat) → Puzzle → Nat → Int × Puzzle
  | [], p, numBlank => ((numBlank : Int), p)
  | rc :: rest, p, numBlank =>
    let t := trimCell p rc.1 rc.2 numBlank
    if t.1 then trimGo rest t.2.1 t.2.2 else (-1, t.2.1)

/-- `SudokuPuzzle::trimPossibilities`: reset the MRV trackers to their
sentinels, then scan all 81 cells; returns -1 or the number of cells whose
candidate set survived with 2 or more entries. -/
def trimPossibilities (p : Puzzle) : Int × Puzzle :=
  trimGo allCells
    { p with minPossibilities := 10, minRow := 10, minCol := 10 } 0

/-- The success copy-back in `solve`: for every cell in range, take the
sub-puzzle's value when this puzzle's cell is blank, keep this puzzle's
value otherwise. -/
def mergeBoards (orig sub : Board) : Board :=
  fun r c => if r < 9 ∧ c < 9 ∧ orig r c = 0 then sub r c else orig r c

/-- The candidate loop of `solve`'s branching step.  `recSolve` is the
recursive `subPuzzle->solve()` call; `none` from it (fuel exhaustion in the
model) is propagated.  Each candidate clones the board, sets the MRV cell,
solves the clone, and on the first success copies the clone's values into
this puzzle's blank cells; when the candidates run out the result is
`false` with the puzzle as it stands. -/
def tryCandsAux (recSolve : Board → Option (Bool × Board)) (p : Puzzle) :
    List Int → Option (Bool × Puzzle)
  | [] => some (false, p)
  | v :: rest =>
    match recSolve (setCell p.board p.minRow p.minCol v) with
    | none => none
    | some (true, solved) =>
      some (true, { p with board := mergeBoards p.board solved })
    | some (false, _) => tryCandsAux recSolve p rest

/-- The `while (true)` loop of `solve`, with explicit pass fuel.  One
iteration trims, then tests `-1`, `0` and `prevNumBlank` in the source's
order; a stall branches on the tracked MRV cell's candidate set. -/
def solveLoopAux (recSolve : Board → Option (Bool × Board)) :
    Nat → Int → Puzzle → Option (Bool × Puzzle)
  | 0, _, _ => none
  | passFuel + 1, prevNumBlank, p =>
    let t := trimPossibilities p
    if t.1 = -1 then some (false, t.2)
    else if t.1 = 0 then some (true, t.2)
    else if t.1 = prevNumBlank then
      tryCandsAux recSolve t.2 ((t.2.poss t.2.minRow t.2.minCol).getD [])
    else solveLoopAux recSolve passFuel t.1 t.2

/-- `SudokuPuzzle::solve` on a board: build the object, set all
possibilities, and run the loop with `prevNumBlank = 50` (the source's
sentinel).  `fuel` bounds the recursion depth of the branch search and
83 passes bound each loop (proved sufficient below); the result is the
returned `bool` together with the final board of the object. -/
def solveF : Nat → Board → Option (Bool × Board)
  | 0, _ => none
  | fuel + 1, b =>
    (solveLoopAux (solveF fuel) 83 50
        (setAllPossibilities (mkPuzzle b))).map
      (fun rp => (rp.1, rp.2.board))

/-! ### Specification-side predicates

These are written from the spec's words ("no non-zero digit appears twice
among the unit's 9 cells", "placing `value` would not create a duplicate"),
to be compared with the embedded code. -/

/-- No non-zero digit appears twice in the list. -/
def noDupNonzero (l : List Int) : Prop :=
  ∀ v ∈ l, v ≠ 0 → l.count v ≤ 1

instance (l : List Int) : Decidable (noDupNonzero l) := by
  unfold noDupNonzero; infer_instance

/-- The 9 values of row `r`. -/
def rowList (b : Board) (r : Nat) : List Int :=
  (List.range 9).map (fun c => b r c)

/-- The 9 values of column `c`. -/
def colList (b : Board) (c : Nat) : List Int :=
  (List.range 9).map (fun r => b r c)

/-- Placement consistency as the spec words it: after writing `v` at
`(r, c)` (the cell's own prior value excluded, the other cells at their
current values), the cell's row, column and box each contain no duplicate
non-zero digit. -/
def placementFits (b : Board) (v : Int) (r c : Nat) : Prop :=
  noDupNonzero (rowList (setCell b r c v) r) ∧
  noDupNonzero (colList (setCell b r c v) c) ∧
  noDupNonzero (boxCells (setCell b r c v) (3 * (r / 3)) (3 * (c / 3)))

instance (b : Board) (v : Int) (r c : Nat) : Decidable (placementFits b v r c) := by
  unfold placementFits; infer_instance

/-- Number of blank cells on the board (over the 81 real cells). -/
def countBlanks (b : Board) : Nat :=
  (allCells.filter (fun rc => b rc.1 rc.2 == 0)).length

/-- Number of cells holding a live candidate set. -/
def countSets (p : Puzzle) : Nat :=
  (allCells.filter (fun rc => (p.poss rc.1 rc.2).isSome)).length

/-- Well-formedness of one cell: a null set means the cell is filled; a live
set means the cell is blank and the set is a strictly ascending list of
digits 1..9 (the invariant `std::set<int>` iteration provides). -/
def cellOk (b : Board) (r c : Nat) : Option (List Int) → Prop
  | none => b r c ≠ 0
  | some s => b r c = 0 ∧ List.Pairwise (· < ·) s ∧ ∀ v ∈ s, 1 ≤ v ∧ v ≤ 9

instance (b : Board) (r c : Nat) (o : Option (List Int)) :
    Decidable (cellOk b r c o) := by
  cases o <;> (unfold cellOk; infer_instance)

/-- Well-formedness of a puzzle state over the 81 real cells. -/
def WF (p : Puzzle) : Prop :=
  ∀ r, r < 9 → ∀ c, c < 9 → cellOk p.board r c (p.poss r c)

instance (p : Puzzle) : Decidable (WF p) := by
  unfold WF; infer_instance

/-- Out-of-range possibility pointers stay null (the C++ array simply has no
such cells; the model's total functions need this recorded). -/
def PossInRange (p : Puzzle) : Prop :=
  ∀ r c, ¬(r < 9 ∧ c < 9) → p.poss r c = none

/-- Strict row-major order on cell coordinates. -/
def lexLt (a b : Nat × Nat) : Prop :=
  a.1 < b.1 ∨ (a.1 = b.1 ∧ a.2 < b.2)

instance (a b : Nat × Nat) : Decidable (lexLt a b) := by
  unfold lexLt; infer_instance

/-! ### Concrete boards used by witnesses and counterexamples -/

/-- Board from a row-major list of rows (cells outside the lists read 0). -/
def gridOfLists (l : List (List Int)) : Board :=
  fun r c => (l.getD r []).getD c 0

/-- A fully solved valid grid (rows, columns and boxes all duplicate-free). -/
def gFull : Board := gridOfLists
  [[1, 2, 3, 4, 5, 6, 7, 8, 9],
   [4, 5, 6, 7, 8, 9, 1, 2, 3],
   [7, 8, 9, 1, 2, 3, 4, 5, 6],
   [2, 1, 4, 3, 6, 5, 8, 9, 7],
   [3, 6, 5, 8, 9, 7, 2, 1, 4],
   [8, 9, 7, 2, 1, 4, 3, 6, 5],
   [5, 3, 1, 6, 4, 2, 9, 7, 8],
   [6, 4, 2, 9, 7, 8, 5, 3, 1],
   [9, 7, 8, 5, 3, 1, 6, 4, 2]]

/-- `gFull` with the four cells of an unavoidable rectangle blanked: each
blank keeps exactly the two candidates 1 and 2, so propagation stalls. -/
def gStall : Board := gridOfLists
  [[0, 0, 3, 4, 5, 6, 7, 8, 9],
   [4, 5, 6, 7, 8, 9, 1, 2, 3],
   [7, 8, 9, 1, 2, 3, 4, 5, 6],
   [0, 0, 4, 3, 6, 5, 8, 9, 7],
   [3, 6, 5, 8, 9, 7, 2, 1, 4],
   [8, 9, 7, 2, 1, 4, 3, 6, 5],
   [5, 3, 1, 6, 4, 2, 9, 7, 8],
   [6, 4, 2, 9, 7, 8, 5, 3, 1],
   [9, 7, 8, 5, 3, 1, 6, 4, 2]]

/-- `gFull` with cell (8,8) blanked: one forced cell, solved in one pass. -/
def gOneBlank : Board := gridOfLists
  [[1, 2, 3, 4, 5, 6, 7, 8, 9],
   [4, 5, 6, 7, 8, 9, 1, 2, 3],
   [7, 8, 9, 1, 2, 3, 4, 5, 6],
   [2, 1, 4, 3, 6, 5, 8, 9, 7],
   [3, 6, 5, 8, 9, 7, 2, 1, 4],
   [8, 9, 7, 2, 1, 4, 3, 6, 5],
   [5, 3, 1, 6, 4, 2, 9, 7, 8],
   [6, 4, 2, 9, 7, 8, 5, 3, 1],
   [9, 7, 8, 5, 3, 1, 6, 4, 0]]

/-- `gOneBlank` with cell (0,0) additionally overwritten to 2, duplicating
the 2 at (0,1).  Row 0, column 0 and box (0,0) are fully filled, so the
conflict is invisible to `wouldWork` at the only blank cell (8,8): solve
fills it and reports success, yet no valid completion exists. -/
def gBadTrue : Board := gridOfLists
  [[2, 2, 3, 4, 5, 6, 7, 8, 9],
   [4, 5, 6, 7, 8, 9, 1, 2, 3],
   [7, 8, 9, 1, 2, 3, 4, 5, 6],
   [2, 1, 4, 3, 6, 5, 8, 9, 7],
   [3, 6, 5, 8, 9, 7, 2, 1, 4],
   [8, 9, 7, 2, 1, 4, 3, 6, 5],
   [5, 3, 1, 6, 4, 2, 9, 7, 8],
   [6, 4, 2, 9, 7, 8, 5, 3, 1],
   [9, 7, 8, 5, 3, 1, 6, 4, 0]]

/-- A grid on which the first trim pass assigns the forced cell (0,0) := 1
and then hits a cell with no consistent candidate at (1,3) (its row leaves
only 7, which column 3 already holds): `solve` returns `false`, but the
assignment to (0,0) stays in the caller's board. -/
def gMutated : Board := gridOfLists
  [[0, 2, 3, 4, 5, 6, 7, 8, 9],
   [4, 5, 6, 0, 8, 9, 1, 2, 3],
   [0, 0, 0, 7, 0, 0, 0, 0, 0],
   [0, 0, 0, 0, 0, 0, 0, 0, 0],
   [0, 0, 0, 0, 0, 0, 0, 0, 0],
   [0, 0, 0, 0, 0, 0, 0, 0, 0],
   [0, 0, 0, 0, 0, 0, 0, 0, 0],
   [0, 0, 0, 0, 0, 0, 0, 0, 0],
   [0, 0, 0, 0, 0, 0, 0, 0, 0]]

/-- A grid with 51 blanks whose first trim pass assigns exactly one cell,
(0,8) := 9, leaving 50 blanks: 50 is `solve`'s `prevNumBlank` sentinel, so
the loop treats the productive first pass as a stall and branches. -/
def gFifty : Board := gridOfLists
  [[1, 2, 3, 4, 5, 6, 7, 8, 0],
   [4, 5, 6, 7, 8, 9, 1, 2, 3],
   [7, 8, 9, 1, 2, 3, 4, 5, 6],
   [2, 0, 4, 0, 6, 0, 8, 0, 0],
   [0, 0, 0, 0, 0, 0, 0, 0, 0],
   [0, 0, 0, 0, 0, 0, 0, 0, 0],
   [0, 0, 0, 0, 0, 0, 0, 0, 0],
   [0, 0, 0, 0, 0, 0, 0, 0, 0],
   [0, 0, 0, 0, 0, 0, 0, 0, 0]]

/-- Reflexive row-major order on cell coordinates. -/
def lexLe (a b : Nat × Nat) : Prop :=
  lexLt a b ∨ a = b

/-- Invariant of the MRV trackers part-way through a trim pass, relative to
the list of cells still to be scanned: when a minimum has been recorded
(`minPossibilities` left its sentinel 10), it names an in-range, already
scanned cell that still holds a candidate set of that size, lies strictly
before every unscanned cell, and is minimal (ties broken towards it) among
all scanned cells that still hold candidate sets. -/
def MInv (p : Puzzle) (cells : List (Nat × Nat)) : Prop :=
  (p.minPossibilities ≠ 10 →
    (p.minRow, p.minCol) ∉ cells ∧ p.minRow < 9 ∧ p.minCol < 9 ∧
    p.minPossibilities ≤ 9 ∧
    (∃ s, p.poss p.minRow p.minCol = some s ∧
      s.length = p.minPossibilities) ∧
    (∀ rc ∈ cells, lexLt (p.minRow, p.minCol) rc)) ∧
  (∀ r c t, p.poss r c = some t → (r, c) ∉ cells → r < 9 → c < 9 →
    p.minPossibilities ≤ t.length ∧
    (t.length = p.minPossibilities → lexLe (p.minRow, p.minCol) (r, c)))

/-- The solver state on `gStall` right after `setAllPossibilities`: a
concrete state on which one trim pass stalls at 4 blanks. -/
def stW : Puzzle := setAllPossibilities (mkPuzzle gStall)

/-- The state of `stW` after its first (stalling) trim pass. -/
def qW : Puzzle := (trimPossibilities stW).2

/-- `b'` keeps every clue (non-blank cell) of `g`. -/
def ExtendsClues (g b' : Board) : Prop :=
  ∀ r c, r < 9 → c < 9 → g r c ≠ 0 → b' r c = g r c

/-- A completely filled grid satisfying the Sudoku conditions: no blanks and
no duplicate non-zero digit in any row, column or box. -/
def ValidComplete (b : Board) : Prop :=
  (∀ r c, r < 9 → c < 9 → b r c ≠ 0) ∧
  (∀ i, i < 9 → noDupNonzero (rowList b i)) ∧
  (∀ i, i < 9 → noDupNonzero (colList b i)) ∧
  (∀ br bc, br < 3 → bc < 3 → noDupNonzero (boxCells b (3 * br) (3 * bc)))

/-! ### The file-parsing constructor (`SudokuPuzzle(const string&)`) -/

/-- Modelled `std::stoi` on one token: skip leading whitespace, accept an
optional sign, then require at least one digit (further characters are
ignored, as `stoi` ignores them); `none` models the thrown
`std::invalid_argument` when no digit is found. -/
def stoi (tok : String) : Option Int :=
  let l := tok.toList.dropWhile (fun ch => ch == ' ' || ch == '\t')
  let sl : Int × List Char :=
    match l with
    | '-' :: rest => (-1, rest)
    | '+' :: rest => (1, rest)
    | _ => (1, l)
  let ds := sl.2.takeWhile Char.isDigit
  if ds.isEmpty then none
  else some (sl.1 * ((ds.foldl (fun acc ch => acc * 10 + (ch.toNat - 48)) 0 : Nat) : Int))

/-- One `getline(lineStream, value, ',')` step at a time: reading stops at
a comma (consumed) or at end of input; a call at end of input fails, so a
trailing comma yields no extra empty token. -/
def tokenize : List Char → List Char → List String
  | [], cur => [String.mk cur.reverse]
  | ch :: rest, cur =>
    if ch = ',' then
      String.mk cur.reverse ::
        (match rest with
         | [] => []
         | _ => tokenize rest [])
    else tokenize rest (ch :: cur)

/-- The comma-separated tokens of one line, with `getline` semantics: an
empty line yields no tokens at all. -/
def splitLine (line : String) : List String :=
  match line.toList with
  | [] => []
  | l => tokenize l []

/-- The inner token loop of the file constructor: each comma-separated
token is written at (row, col) and col incremented; a " ", "" or "0" token
is written as 0; any other token goes through `stoi`, whose exception
(`none`) aborts parsing on the spot, leaving the board as written so far. -/
def readRow (b : Board) (row col : Nat) : List String → Board × Bool
  | [] => (b, true)
  | tok :: rest =>
    if tok = " " ∨ tok = "" ∨ tok = "0" then
      readRow (setCell b row col 0) row (col + 1) rest
    else
      match stoi tok with
      | some v => readRow (setCell b row col v) row (col + 1) rest
      | none => (b, false)

/-- The line loop of the file constructor; an exception inside a row
propagates out of both loops (to the catch that prints to stderr). -/
def readRows (b : Board) (row : Nat) : List String → Board × Bool
  | [] => (b, true)
  | line :: rest =>
    let rr := readRow b row 0 (splitLine line)
    if rr.2 then readRows rr.1 (row + 1) rest else (rr.1, false)

/-- The constructor `SudokuPuzzle(const string&)` applied to already-read
file content.  `uninit` is whatever the uninitialized `board` member held
before the loops ran (the member is never zeroed).  The Bool records
whether parsing ran to completion; `false` means the exception was caught
and swallowed — the object is produced either way, with null candidate
sets and sentinel MRV values, and no failure is reported to the caller. -/
def mkPuzzleFromContent (uninit : Board) (contents : List String) :
    Puzzle × Bool :=
  let rb := readRows uninit 0 contents
  ({ board := rb.1, poss := fun _ _ => none, minPossibilities := 10, minRow := 10, minCol := 10 }, rb.2)

/-- A malformed file: only two rows, with a non-numeric token in row 1. -/
def badContent : List String := ["1,2,3,4,5,6,7,8,9", "4,x,6,7,8,9,1,2,3"]

/-! ### The verbose variant: the same solver with its console output
modelled as a message log.  Every `cout` site of `solve`'s call graph is a
`Msg` constructor; `verbose` guards exactly the sites the source guards.
The plain definitions above are the projections of these onto results. -/

/-- One console message of the source, with the data it prints. -/
inductive Msg
  | rowHasRepeat (isRow : Bool) (idx : Nat) (v : Int)
  | rowIsOk (isRow : Bool) (idx : Nat)
  | subHasRepeat (sr sc : Nat) (v : Int)
  | subIsOk (sr sc : Nat)
  | boardPrint (b : Board)
  | possCount (r c : Nat) (s : List Int)
  | gonnaSet (v : Int)
  | trimReturning (n : Nat)
  | minInfo (mp mr mc : Nat)
  | creatingSub (v : Int)
  | solutionBanner (b : Board)

/-- `isRowOrColOk` with its verbose messages. -/
def isRowOrColOkV (vb : Bool) (b : Board) (row : Nat) (which : RowOrCol) :
    Bool × List Msg :=
  let isRow := match which with | RowOrCol.ROW => true | RowOrCol.COL => false
  match checkVals (rowColCells b row which) [] with
  | some v => (false, if vb then [Msg.rowHasRepeat isRow row v] else [])
  | none => (true, if vb then [Msg.rowIsOk isRow row] else [])

/-- `isSubmatrixOk` with its verbose messages. -/
def isSubmatrixOkV (vb : Bool) (b : Board) (sr sc : Nat) : Bool × List Msg :=
  match checkVals (boxCells b sr sc) [] with
  | some v => (false, if vb then [Msg.subHasRepeat sr sc v] else [])
  | none => (true, if vb then [Msg.subIsOk sr sc] else [])

/-- `wouldWork` with the messages of the checks it actually ran (the early
returns stop after the failing check). -/
def wouldWorkV (vb : Bool) (b : Board) (value : Int) (atRow atCol : Nat) :
    (Bool × Board) × List Msg :=
  let b1 := setCell b atRow atCol value
  let rk := isRowOrColOkV vb b1 atRow RowOrCol.ROW
  if !rk.1 then ((false, setCell b1 atRow atCol 0), rk.2)
  else
    let ck := isRowOrColOkV vb b1 atCol RowOrCol.COL
    if !ck.1 then ((false, setCell b1 atRow atCol 0), rk.2 ++ ck.2)
    else
      let sk := isSubmatrixOkV vb b1 (3 * (atRow / 3)) (3 * (atCol / 3))
      ((sk.1, setCell b1 atRow atCol 0), rk.2 ++ ck.2 ++ sk.2)

/-- The candidate-erasing loop with messages. -/
def trimFilterV (vb : Bool) (b : Board) (r c : Nat) :
    List Int → (List Int × Board) × List Msg
  | [] => (([], b), [])
  | v :: rest =>
    let wb := wouldWorkV vb b v r c
    let fr := trimFilterV vb wb.1.2 r c rest
    if wb.1.1 then ((v :: fr.1.1, fr.1.2), wb.2 ++ fr.2)
    else (fr.1, wb.2 ++ fr.2)

/-- One cell of the trim scan with messages: the surviving candidates are
listed (verbose), then an assignment announces itself (verbose). -/
def trimCellV (vb : Bool) (p : Puzzle) (r c : Nat) (numBlank : Nat) :
    (Bool × Puzzle × Nat) × List Msg :=
  match p.poss r c with
  | none => ((true, p, numBlank), [])
  | some s =>
    let fb := trimFilterV vb p.board r c s
    let listMsg := if vb then [Msg.possCount r c fb.1.1] else []
    match fb.1.1 with
    | [] =>
      ((false, { p with board := fb.1.2, poss := updPoss p.poss r c (some []) }, numBlank),
       fb.2 ++ listMsg)
    | [v] =>
      ((true, { p with board := setCell fb.1.2 r c v, poss := updPoss p.poss r c none }, numBlank),
       fb.2 ++ listMsg ++ (if vb then [Msg.gonnaSet v] else []))
    | s' =>
      (if s'.length < p.minPossibilities then
        ((true, { p with board := fb.1.2, poss := updPoss p.poss r c (some s'), minPossibilities := s'.length, minRow := r, minCol := c }, numBlank + 1), fb.2 ++ listMsg)
       else
        ((true, { p with board := fb.1.2, poss := updPoss p.poss r c (some s') }, numBlank + 1), fb.2 ++ listMsg))

/-- The trim double loop with messages; the closing count message is only
printed when the loop runs to completion (the -1 return skips it). -/
def trimGoV (vb : Bool) : List (Nat × Nat) → Puzzle → Nat → (Int × Puzzle) × List Msg
  | [], p, numBlank =>
    (((numBlank : Int), p), if vb then [Msg.trimReturning numBlank] else [])
  | rc :: rest, p, numBlank =>
    let t := trimCellV vb p rc.1 rc.2 numBlank
    if t.1.1 then
      let g := trimGoV vb rest t.1.2.1 t.1.2.2
      (g.1, t.2 ++ g.2)
    else ((-1, t.1.2.1), t.2)

/-- `trimPossibilities` with messages (it prints the board first when
verbose). -/
def trimPossibilitiesV (vb : Bool) (p : Puzzle) : (Int × Puzzle) × List Msg :=
  let g := trimGoV vb allCells
    { p with minPossibilities := 10, minRow := 10, minCol := 10 } 0
  (g.1, (if vb then [Msg.boardPrint p.board] else []) ++ g.2)

/-- The branch candidate loop with messages. -/
def tryCandsAuxV (recSolve : Board → Option (Bool × Board) × List Msg)
    (vb : Bool) (p : Puzzle) : List Int → Option (Bool × Puzzle) × List Msg
  | [] => (some (false, p), [])
  | v :: rest =>
    let pre := if vb then [Msg.creatingSub v] else []
    let sub := recSolve (setCell p.board p.minRow p.minCol v)
    match sub.1 with
    | none => (none, pre ++ sub.2)
    | some (true, solved) =>
      (some (true, { p with board := mergeBoards p.board solved }), pre ++ sub.2)
    | some (false, _) =>
      let tr := tryCandsAuxV recSolve vb p rest
      (tr.1, pre ++ sub.2 ++ tr.2)

/-- The solve loop with messages; the "Solution:" banner and board print on
success are unconditional in the source, so they are logged for either
verbose setting. -/
def solveLoopAuxV (recSolve : Board → Option (Bool × Board) × List Msg)
    (vb : Bool) : Nat → Int → Puzzle → Option (Bool × Puzzle) × List Msg
  | 0, _, _ => (none, [])
  | passFuel + 1, prevNumBlank, p =>
    let t := trimPossibilitiesV vb p
    if t.1.1 = -1 then (some (false, t.1.2), t.2)
    else if t.1.1 = 0 then
      (some (true, t.1.2), t.2 ++ [Msg.solutionBanner t.1.2.board])
    else if t.1.1 = prevNumBlank then
      let pre := if vb then
        [Msg.minInfo t.1.2.minPossibilities t.1.2.minRow t.1.2.minCol] else []
      let tc := tryCandsAuxV recSolve vb t.1.2
        ((t.1.2.poss t.1.2.minRow t.1.2.minCol).getD [])
      (tc.1, t.2 ++ pre ++ tc.2)
    else
      let l := solveLoopAuxV recSolve vb passFuel t.1.1 t.1.2
      (l.1, t.2 ++ l.2)

/-- `solve` with messages.  Recursive sub-puzzles are solved with
`subPuzzle->solve()` — verbose defaulted to false — exactly as in the
source. -/
def solveFV : Bool → Nat → Board → Option (Bool × Board) × List Msg
  | _, 0, _ => (none, [])
  | vb, fuel + 1, b =>
    let l := solveLoopAuxV (solveFV false fuel) vb 83 50
      (setAllPossibilities (mkPuzzle b))
    (l.1.map (fun rp => (rp.1, rp.2.board)), l.2)

end SudokuSolver

namespace SudokuSolver

/-! ### Basic lemmas about the embedded primitives -/

theorem setCell_setCell (b : Board) (r c : Nat) (v w : Int) :
    setCell (setCell b r c v) r c w = setCell b r c w := by
  funext r' c'
  unfold setCell
  by_cases h : r' = r ∧ c' = c <;> simp [h]

theorem setCell_self (b : Board) (r c : Nat) (h : b r c = 0) :
    setCell b r c 0 = b := by
  funext r' c'
  unfold setCell
  by_cases h' : r' = r ∧ c' = c
  · rw [if_pos h', h'.1, h'.2, h]
  · rw [if_neg h']

theorem setCell_apply_of_ne (b : Board) (r c r' c' : Nat) (v : Int)
    (h : ¬(r' = r ∧ c' = c)) : setCell b r c v r' c' = b r' c' := by
  unfold setCell
  rw [if_neg h]

theorem setCell_apply_self (b : Board) (r c : Nat) (v : Int) :
    setCell b r c v r c = v := by
  unfold setCell
  simp

/-- Characterization of the duplicate scan: it reports no duplicate exactly
when every non-zero value occurs at most once counting both the list and the
already-seen set. -/
theorem checkVals_eq_none_iff (l : List Int) : ∀ seen : List Int,
    (checkVals l seen = none ↔
      ∀ v : Int, v ≠ 0 → l.count v + (if v ∈ seen then 1 else 0) ≤ 1) := by
  induction l with
  | nil =>
    intro seen
    simp only [checkVals, List.count_nil, Nat.zero_add, true_iff]
    intro v hv
    split <;> simp
  | cons v rest ih =>
    intro seen
    by_cases hv0 : v = 0
    · subst hv0
      simp only [checkVals, ne_eq, not_true_eq_false, if_false, ih]
      constructor
      · intro h w hw
        rw [List.count_cons_of_ne hw]
        exact h w hw
      · intro h w hw
        have := h w hw
        rwa [List.count_cons_of_ne hw] at this
    · simp only [checkVals, ne_eq, hv0, not_false_eq_true, if_true]
      by_cases hmem : v ∈ seen
      · simp only [hmem, if_pos]
        constructor
        · intro h
          exact absurd h (by simp)
        · intro h
          exfalso
          have := h v hv0
          rw [if_pos hmem, List.count_cons_self] at this
          omega
      · rw [if_neg hmem, ih]
        constructor
        · intro h w hw
          by_cases hwv : w = v
          · subst hwv
            have := h w hw
            rw [if_pos (List.mem_cons_self w seen)] at this
            rw [List.count_cons_self, if_neg hmem]
            omega
          · have hind : (if w ∈ v :: seen then (1 : Nat) else 0) =
                if w ∈ seen then 1 else 0 := by
              simp [List.mem_cons, hwv]
            have := h w hw
            rw [hind] at this
            rwa [List.count_cons_of_ne hwv]
        · intro h w hw
          by_cases hwv : w = v
          · subst hwv
            have := h w hw
            rw [List.count_cons_self, if_neg hmem] at this
            rw [if_pos (List.mem_cons_self w seen)]
            omega
          · have hind : (if w ∈ v :: seen then (1 : Nat) else 0) =
                if w ∈ seen then 1 else 0 := by
              simp [List.mem_cons, hwv]
            have := h w hw
            rw [List.count_cons_of_ne hwv] at this
            rw [hind]
            exact this

end SudokuSolver

namespace SudokuSolver

theorem checkVals_nil_none_iff (l : List Int) :
    checkVals l [] = none ↔ noDupNonzero l := by
  rw [checkVals_eq_none_iff]
  constructor
  · intro h v hv hv0
    simpa using h v hv0
  · intro h v hv0
    by_cases hm : v ∈ l
    · simpa using h v hm hv0
    · simp [List.count_eq_zero.mpr hm]

theorem rowColCells_ROW (b : Board) (r : Nat) :
    rowColCells b r RowOrCol.ROW = rowList b r := rfl

theorem rowColCells_COL (b : Board) (c : Nat) :
    rowColCells b c RowOrCol.COL = colList b c := rfl

theorem isRowOrColOk_ROW_iff (b : Board) (r : Nat) :
    isRowOrColOk b r RowOrCol.ROW = true ↔ noDupNonzero (rowList b r) := by
  rw [isRowOrColOk, Option.isNone_iff_eq_none, rowColCells_ROW,
    checkVals_nil_none_iff]

theorem isRowOrColOk_COL_iff (b : Board) (c : Nat) :
    isRowOrColOk b c RowOrCol.COL = true ↔ noDupNonzero (colList b c) := by
  rw [isRowOrColOk, Option.isNone_iff_eq_none, rowColCells_COL,
    checkVals_nil_none_iff]

theorem isSubmatrixOk_iff (b : Board) (sr sc : Nat) :
    isSubmatrixOk b sr sc = true ↔ noDupNonzero (boxCells b sr sc) := by
  rw [isSubmatrixOk, Option.isNone_iff_eq_none, checkVals_nil_none_iff]

/-- C4: `isSolutionValid` (partial mode) returns true on a 9x9 grid with
values in [0,9] iff no non-zero digit appears twice within any of the 9
rows, 9 columns, or 9 non-overlapping 3x3 boxes; blanks (zeros) are never
counted as duplicates of each other. -/
theorem isSolutionValid_partial_iff (b : Board)
    (hrange : ∀ r, r < 9 → ∀ c, c < 9 → 0 ≤ b r c ∧ b r c ≤ 9) :
    isSolutionValid b = true ↔
      ((∀ i, i < 9 → noDupNonzero (rowList b i)) ∧
       (∀ i, i < 9 → noDupNonzero (colList b i)) ∧
       (∀ br, br < 3 → ∀ bc, bc < 3 →
          noDupNonzero (boxCells b (3 * br) (3 * bc)))) := by
  unfold isSolutionValid
  rw [Bool.and_eq_true, Bool.and_eq_true]
  simp only [List.all_eq_true, List.mem_range]
  constructor
  · rintro ⟨⟨hr, hc⟩, hs⟩
    refine ⟨fun i hi => (isRowOrColOk_ROW_iff b i).mp (hr i hi),
            fun i hi => (isRowOrColOk_COL_iff b i).mp (hc i hi), ?_⟩
    intro br hbr bc hbc
    simp only [areSubmatricesOk, List.all_eq_true] at hs
    have h00 : ∀ sr sc, sr ∈ [0, 3, 6] → sc ∈ [0, 3, 6] →
        noDupNonzero (boxCells b sr sc) := by
      intro sr sc hsr hsc
      exact (isSubmatrixOk_iff b sr sc).mp (hs sr hsr sc hsc)
    interval_cases br <;> interval_cases bc <;>
      simpa using h00 _ _ (by simp) (by simp)
  · rintro ⟨hr, hc, hbox⟩
    refine ⟨⟨fun i hi => (isRowOrColOk_ROW_iff b i).mpr (hr i hi),
             fun i hi => (isRowOrColOk_COL_iff b i).mpr (hc i hi)⟩, ?_⟩
    simp only [areSubmatricesOk, List.all_eq_true]
    intro sr hsr sc hsc
    rw [isSubmatrixOk_iff]
    simp only [List.mem_cons, List.mem_singleton, List.not_mem_nil, or_false] at hsr hsc
    rcases hsr with h1 | h1 | h1 <;> rcases hsc with h2 | h2 | h2 <;> subst h1 <;> subst h2
    · simpa using hbox 0 (by omega) 0 (by omega)
    · simpa using hbox 0 (by omega) 1 (by omega)
    · simpa using hbox 0 (by omega) 2 (by omega)
    · simpa using hbox 1 (by omega) 0 (by omega)
    · simpa using hbox 1 (by omega) 1 (by omega)
    · simpa using hbox 1 (by omega) 2 (by omega)
    · simpa using hbox 2 (by omega) 0 (by omega)
    · simpa using hbox 2 (by omega) 1 (by omega)
    · simpa using hbox 2 (by omega) 2 (by omega)

/-- Witness for C4 at the concrete valid grid `gFull`. -/
theorem isSolutionValid_partial_iff_witness :
    (∀ r, r < 9 → ∀ c, c < 9 → 0 ≤ gFull r c ∧ gFull r c ≤ 9) ∧
    (isSolutionValid gFull = true ↔
      ((∀ i, i < 9 → noDupNonzero (rowList gFull i)) ∧
       (∀ i, i < 9 → noDupNonzero (colList gFull i)) ∧
       (∀ br, br < 3 → ∀ bc, bc < 3 →
          noDupNonzero (boxCells gFull (3 * br) (3 * bc))))) :=
  ⟨by decide, isSolutionValid_partial_iff gFull (by decide)⟩

theorem wouldWork_fst_iff (b : Board) (v : Int) (r c : Nat) :
    (wouldWork b v r c).1 = true ↔ placementFits b v r c := by
  show (isRowOrColOk (setCell b r c v) r RowOrCol.ROW &&
      isRowOrColOk (setCell b r c v) c RowOrCol.COL &&
      isSubmatrixOk (setCell b r c v) (3 * (r / 3)) (3 * (c / 3))) = true ↔ _
  rw [Bool.and_eq_true, Bool.and_eq_true, isRowOrColOk_ROW_iff,
    isRowOrColOk_COL_iff, isSubmatrixOk_iff]
  unfold placementFits
  tauto

theorem wouldWork_snd (b : Board) (v : Int) (r c : Nat) :
    (wouldWork b v r c).2 = setCell b r c 0 := by
  show setCell (setCell b r c v) r c 0 = setCell b r c 0
  rw [setCell_setCell]

/-- C5: for a blank cell and a digit 1..9, `wouldWork` answers true iff the
placement leaves the cell's row, column and box free of duplicate non-zero
digits (the other cells at their current values), and it leaves the board
exactly as it was before the call. -/
theorem wouldWork_spec (b : Board) (v : Int) (r c : Nat)
    (hblank : b r c = 0) (hv1 : 1 ≤ v) (hv9 : v ≤ 9) :
    ((wouldWork b v r c).1 = true ↔ placementFits b v r c) ∧
    (wouldWork b v r c).2 = b :=
  ⟨wouldWork_fst_iff b v r c, by rw [wouldWork_snd, setCell_self b r c hblank]⟩

/-- Witness for C5 at the blank cell (0,0) of `gStall` with value 1. -/
theorem wouldWork_spec_witness :
    gStall 0 0 = 0 ∧ (1 : Int) ≤ 1 ∧ (1 : Int) ≤ 9 ∧
    (((wouldWork gStall 1 0 0).1 = true ↔ placementFits gStall 1 0 0) ∧
      (wouldWork gStall 1 0 0).2 = gStall) :=
  ⟨by decide, by decide, by decide,
   wouldWork_spec gStall 1 0 0 (by decide) (by decide) (by decide)⟩

end SudokuSolver

namespace SudokuSolver

theorem updPoss_apply_self (f : Nat → Nat → Option (List Int)) (r c : Nat)
    (o : Option (List Int)) : updPoss f r c o r c = o := by
  unfold updPoss
  simp

theorem updPoss_apply_of_ne (f : Nat → Nat → Option (List Int)) (r c : Nat)
    (o : Option (List Int)) (r' c' : Nat) (h : ¬(r' = r ∧ c' = c)) :
    updPoss f r c o r' c' = f r' c' := by
  unfold updPoss
  rw [if_neg h]

theorem mem_allCells (r c : Nat) : (r, c) ∈ allCells ↔ r < 9 ∧ c < 9 := by
  simp only [allCells, List.mem_flatten, List.mem_map, List.mem_range]
  constructor
  · rintro ⟨l, ⟨r', hr', rfl⟩, hmem⟩
    rcases List.mem_map.mp hmem with ⟨c', hc', heq⟩
    obtain ⟨rfl, rfl⟩ := Prod.mk.injEq r' c' r c ▸ heq
    exact ⟨hr', List.mem_range.mp hc'⟩
  · rintro ⟨hr, hc⟩
    exact ⟨(List.range 9).map (fun c' => (r, c')), ⟨r, hr, rfl⟩,
      List.mem_map.mpr ⟨c, List.mem_range.mpr hc, rfl⟩⟩

/-- With the cell blank, the candidate-testing loop is pure: the board comes
back unchanged and the surviving candidates are exactly the `wouldWork`
filter. -/
theorem trimFilter_of_blank (b : Board) (r c : Nat) (hblank : b r c = 0) :
    ∀ s : List Int,
      trimFilter b r c s = (s.filter (fun v => (wouldWork b v r c).1), b) := by
  intro s
  induction s with
  | nil => rfl
  | cons v rest ih =>
    show (let wb := wouldWork b v r c
          let fr := trimFilter wb.2 r c rest
          if wb.1 then (v :: fr.1, fr.2) else fr) = _
    have hsnd : (wouldWork b v r c).2 = b := by
      rw [wouldWork_snd, setCell_self b r c hblank]
    rw [List.filter_cons]
    simp only [hsnd, ih]
    by_cases hok : (wouldWork b v r c).1 <;> simp [hok]

theorem wouldWork_fst_eq_decide (b : Board) (v : Int) (r c : Nat) :
    (wouldWork b v r c).1 = decide (placementFits b v r c) := by
  by_cases h : placementFits b v r c
  · rw [decide_eq_true h, (wouldWork_fst_iff b v r c).mpr h]
  · rw [decide_eq_false h]
    exact Bool.eq_false_iff.mpr (fun hc => h ((wouldWork_fst_iff b v r c).mp hc))

/-- The per-cell step of a trim pass, written with the raw `wouldWork`
filter. -/
theorem trimCell_eq (p : Puzzle) (r c : Nat) (n : Nat) (s : List Int)
    (hs : p.poss r c = some s) (hblank : p.board r c = 0) :
    trimCell p r c n =
      match s.filter (fun v => (wouldWork p.board v r c).1) with
      | [] =>
        (false, { p with poss := updPoss p.poss r c (some []) }, n)
      | [v] =>
        (true,
         { p with board := setCell p.board r c v,
                  poss := updPoss p.poss r c none }, n)
      | s' =>
        (if s'.length < p.minPossibilities then
          (true, { p with poss := updPoss p.poss r c (some s'), minPossibilities := s'.length, minRow := r, minCol := c }, n + 1)
         else
          (true, { p with poss := updPoss p.poss r c (some s') }, n + 1)) := by
  unfold trimCell
  rw [hs]
  simp only [trimFilter_of_blank p.board r c hblank s]

end SudokuSolver

namespace SudokuSolver

theorem length_le_nine (s : List Int) (hpw : List.Pairwise (· < ·) s)
    (hbd : ∀ v ∈ s, 1 ≤ v ∧ v ≤ 9) : s.length ≤ 9 := by
  have hnd : s.Nodup := hpw.imp (fun h => ne_of_lt h)
  have hsub : s ⊆ allNine := by
    intro v hv
    have := hbd v hv
    simp only [allNine, List.mem_cons, List.not_mem_nil, or_false]
    omega
  have hsp := List.subperm_of_subset hnd hsub
  simpa [allNine] using hsp.length_le

/-- `MInv` is preserved when the head unscanned cell holds no candidate
set. -/
theorem MInv_tail_of_none (p : Puzzle) (rc : Nat × Nat)
    (rest : List (Nat × Nat)) (hposs : p.poss rc.1 rc.2 = none)
    (hMI : MInv p (rc :: rest)) : MInv p rest := by
  obtain ⟨hA, hB⟩ := hMI
  constructor
  · intro h10
    obtain ⟨hnm, hr, hc, h9, hex, hlt⟩ := hA h10
    exact ⟨fun hm => hnm (List.mem_cons_of_mem rc hm), hr, hc, h9, hex,
      fun x hx => hlt x (List.mem_cons_of_mem rc hx)⟩
  · intro r c t hp hrest hr hc
    by_cases hx : (r, c) = rc
    · exfalso
      rw [show r = rc.1 from congrArg Prod.fst hx,
        show c = rc.2 from congrArg Prod.snd hx] at hp
      rw [hposs] at hp
      cases hp
    · exact hB r c t hp (by
        intro hmem
        rcases List.mem_cons.mp hmem with h | h
        · exact hx h
        · exact hrest h) hr hc

end SudokuSolver

namespace SudokuSolver

theorem cellOk_of_eq (b b' : Board) (r c : Nat) (o : Option (List Int))
    (h : b' r c = b r c) (hok : cellOk b r c o) : cellOk b' r c o := by
  cases o with
  | none => simp only [cellOk] at *; rw [h]; exact hok
  | some s =>
    simp only [cellOk] at *
    exact ⟨by rw [h]; exact hok.1, hok.2⟩

theorem trimGo_step_none (p : Puzzle) (rc : Nat × Nat)
    (rest : List (Nat × Nat)) (n : Nat) (hposs : p.poss rc.1 rc.2 = none) :
    trimGo (rc :: rest) p n = trimGo rest p n := by
  simp only [trimGo, trimCell, hposs]
  rw [if_pos trivial]

theorem trimGo_step_empty (p : Puzzle) (rc : Nat × Nat)
    (rest : List (Nat × Nat)) (n : Nat) (s : List Int)
    (hposs : p.poss rc.1 rc.2 = some s) (hblank : p.board rc.1 rc.2 = 0)
    (hks : s.filter (fun v => (wouldWork p.board v rc.1 rc.2).1) = []) :
    trimGo (rc :: rest) p n =
      (-1, { p with poss := updPoss p.poss rc.1 rc.2 (some []) }) := by
  simp only [trimGo]
  rw [trimCell_eq p rc.1 rc.2 n s hposs hblank, hks]
  simp

theorem trimGo_step_single (p : Puzzle) (rc : Nat × Nat)
    (rest : List (Nat × Nat)) (n : Nat) (s : List Int) (v1 : Int)
    (hposs : p.poss rc.1 rc.2 = some s) (hblank : p.board rc.1 rc.2 = 0)
    (hks : s.filter (fun v => (wouldWork p.board v rc.1 rc.2).1) = [v1]) :
    trimGo (rc :: rest) p n =
      trimGo rest
        { p with board := setCell p.board rc.1 rc.2 v1,
                 poss := updPoss p.poss rc.1 rc.2 none } n := by
  simp only [trimGo]
  rw [trimCell_eq p rc.1 rc.2 n s hposs hblank, hks]
  simp

theorem trimGo_step_keep_update (p : Puzzle) (rc : Nat × Nat)
    (rest : List (Nat × Nat)) (n : Nat) (s : List Int) (v1 v2 : Int)
    (tl : List Int)
    (hposs : p.poss rc.1 rc.2 = some s) (hblank : p.board rc.1 rc.2 = 0)
    (hks : s.filter (fun v => (wouldWork p.board v rc.1 rc.2).1) = v1 :: v2 :: tl)
    (hlt : (v1 :: v2 :: tl).length < p.minPossibilities) :
    trimGo (rc :: rest) p n =
      trimGo rest
        { p with poss := updPoss p.poss rc.1 rc.2 (some (v1 :: v2 :: tl)), minPossibilities := (v1 :: v2 :: tl).length, minRow := rc.1, minCol := rc.2 }
        (n + 1) := by
  simp only [trimGo]
  rw [trimCell_eq p rc.1 rc.2 n s hposs hblank, hks]
  dsimp only
  rw [if_pos hlt]
  simp

theorem trimGo_step_keep_noupdate (p : Puzzle) (rc : Nat × Nat)
    (rest : List (Nat × Nat)) (n : Nat) (s : List Int) (v1 v2 : Int)
    (tl : List Int)
    (hposs : p.poss rc.1 rc.2 = some s) (hblank : p.board rc.1 rc.2 = 0)
    (hks : s.filter (fun v => (wouldWork p.board v rc.1 rc.2).1) = v1 :: v2 :: tl)
    (hge : ¬(v1 :: v2 :: tl).length < p.minPossibilities) :
    trimGo (rc :: rest) p n =
      trimGo rest
        { p with poss := updPoss p.poss rc.1 rc.2 (some (v1 :: v2 :: tl)) }
        (n + 1) := by
  simp only [trimGo]
  rw [trimCell_eq p rc.1 rc.2 n s hposs hblank, hks]
  dsimp only
  rw [if_neg hge]
  simp

end SudokuSolver

namespace SudokuSolver

/-- Master description of a trim scan over a list of cells: well-formedness
is preserved, unscanned cells are untouched, filled cells are never
overwritten, candidate sets are never created, and on a non-contradictory
scan the returned count is the running count plus the number of scanned
cells whose candidate set survived (all of which have at least 2 entries),
with the MRV trackers correctly describing the minimal survivor. -/
theorem trimGo_master (cells : List (Nat × Nat)) :
    ∀ (p : Puzzle) (n : Nat) (res : Int) (q : Puzzle),
      trimGo cells p n = (res, q) →
      (∀ rc ∈ cells, rc.1 < 9 ∧ rc.2 < 9) →
      cells.Nodup →
      List.Pairwise lexLt cells →
      WF p →
      MInv p cells →
      WF q ∧
      (∀ r c, (r, c) ∉ cells → q.poss r c = p.poss r c ∧ q.board r c = p.board r c) ∧
      (∀ r c, p.board r c ≠ 0 → q.board r c = p.board r c) ∧
      (∀ r c, p.poss r c = none → q.poss r c = none) ∧
      (0 ≤ res →
        res = (n : Int) + ((cells.filter (fun rc => (q.poss rc.1 rc.2).isSome)).length : Int) ∧
        (∀ rc ∈ cells, ∀ s, q.poss rc.1 rc.2 = some s → 2 ≤ s.length) ∧
        MInv q []) := by
  induction cells with
  | nil =>
    intro p n res q heq hin hnd hsort hWF hMI
    simp only [trimGo] at heq
    injection heq with h1 h2
    subst h1
    subst h2
    refine ⟨hWF, by simp, by simp, by simp, fun _ => ⟨by simp, by simp, hMI⟩⟩
  | cons rc rest ih =>
    intro p n res q heq hin hnd hsort hWF hMI
    have hrc9 := hin rc (List.mem_cons_self rc rest)
    have hin' : ∀ x ∈ rest, x.1 < 9 ∧ x.2 < 9 :=
      fun x hx => hin x (List.mem_cons_of_mem rc hx)
    obtain ⟨hr9, hc9⟩ := hrc9
    obtain ⟨hrcnmem, hnd'⟩ := List.nodup_cons.mp hnd
    obtain ⟨hltall, hsort'⟩ := List.pairwise_cons.mp hsort
    have hrceta : ((rc.1, rc.2) : Nat × Nat) = rc := rfl
    rcases hposs : p.poss rc.1 rc.2 with _ | s
    · -- no candidate set at the head cell: nothing happens there
      rw [trimGo_step_none p rc rest n hposs] at heq
      obtain ⟨hWFq, hframe, hclue, hnocreate, hres⟩ :=
        ih p n res q heq hin' hnd' hsort' hWF (MInv_tail_of_none p rc rest hposs hMI)
      refine ⟨hWFq, ?_, hclue, hnocreate, ?_⟩
      · intro r c hm
        exact hframe r c (fun h => hm (List.mem_cons_of_mem rc h))
      · intro h0
        obtain ⟨hcount, hkept, hMIq⟩ := hres h0
        have hqrc : q.poss rc.1 rc.2 = none := by
          rw [(hframe rc.1 rc.2 (hrceta ▸ hrcnmem)).1]
          exact hposs
        refine ⟨?_, ?_, hMIq⟩
        · rw [List.filter_cons]
          simp only [hqrc, Option.isSome_none, Bool.false_eq_true, if_false]
          exact hcount
        · intro x hx t hxt
          rcases List.mem_cons.mp hx with rfl | hx'
          · rw [hqrc] at hxt
            cases hxt
          · exact hkept x hx' t hxt
    · -- live candidate set: find its shape after filtering
      have hok := hWF rc.1 hr9 rc.2 hc9
      rw [hposs] at hok
      simp only [cellOk] at hok
      obtain ⟨hblank, hpw, hbd⟩ := hok
      rcases hks : s.filter (fun v => (wouldWork p.board v rc.1 rc.2).1)
        with _ | ⟨v1, _ | ⟨v2, tl⟩⟩
      · -- all candidates fail: the scan aborts with -1
        rw [trimGo_step_empty p rc rest n s hposs hblank hks] at heq
        injection heq with h1 h2
        subst h1
        subst h2
        refine ⟨?_, ?_, ?_, ?_, ?_⟩
        · intro r hr c hc
          show cellOk p.board r c (updPoss p.poss rc.1 rc.2 (some []) r c)
          by_cases hx : r = rc.1 ∧ c = rc.2
          · obtain ⟨rfl, rfl⟩ := hx
            rw [updPoss_apply_self]
            exact ⟨hblank, List.Pairwise.nil, by simp⟩
          · rw [updPoss_apply_of_ne _ _ _ _ _ _ hx]
            exact hWF r hr c hc
        · intro r c hm
          have hx : ¬(r = rc.1 ∧ c = rc.2) := by
            rintro ⟨rfl, rfl⟩
            exact hm (hrceta ▸ List.mem_cons_self rc rest)
          exact ⟨updPoss_apply_of_ne _ _ _ _ _ _ hx, rfl⟩
        · intro r c _
          rfl
        · intro r c hnone
          have hx : ¬(r = rc.1 ∧ c = rc.2) := by
            rintro ⟨rfl, rfl⟩
            rw [hposs] at hnone
            cases hnone
          show updPoss p.poss rc.1 rc.2 (some []) r c = none
          rw [updPoss_apply_of_ne _ _ _ _ _ _ hx]
          exact hnone
        · intro h0
          exact absurd h0 (by norm_num)
      · -- exactly one candidate survives: it is assigned to the board
        have hv1s : v1 ∈ s := List.mem_of_mem_filter (hks ▸ List.mem_cons_self v1 [])
        have hv1ne : v1 ≠ 0 := by
          have := hbd v1 hv1s
          omega
        rw [trimGo_step_single p rc rest n s v1 hposs hblank hks] at heq
        have hWF1 : WF { p with board := setCell p.board rc.1 rc.2 v1, poss := updPoss p.poss rc.1 rc.2 none } := by
          intro r hr c hc
          show cellOk (setCell p.board rc.1 rc.2 v1) r c (updPoss p.poss rc.1 rc.2 none r c)
          by_cases hx : r = rc.1 ∧ c = rc.2
          · obtain ⟨rfl, rfl⟩ := hx
            rw [updPoss_apply_self]
            show setCell p.board rc.1 rc.2 v1 rc.1 rc.2 ≠ 0
            rw [setCell_apply_self]
            exact hv1ne
          · rw [updPoss_apply_of_ne _ _ _ _ _ _ hx]
            exact cellOk_of_eq p.board _ r c _
              (setCell_apply_of_ne _ _ _ _ _ _ hx) (hWF r hr c hc)
        have hMI1 : MInv { p with board := setCell p.board rc.1 rc.2 v1, poss := updPoss p.poss rc.1 rc.2 none } rest := by
          constructor
          · intro h10
            obtain ⟨hnm, hmr, hmc, hle, ⟨ts, hts, htslen⟩, hlex⟩ := hMI.1 h10
            have hne : ¬(p.minRow = rc.1 ∧ p.minCol = rc.2) := by
              rintro ⟨h1, h2⟩
              apply hnm
              rw [h1, h2, hrceta]
              exact List.mem_cons_self rc rest
            refine ⟨fun h => hnm (List.mem_cons_of_mem _ h), hmr, hmc, hle,
              ⟨ts, ?_, htslen⟩, fun x hx => hlex x (List.mem_cons_of_mem _ hx)⟩
            show updPoss p.poss rc.1 rc.2 none p.minRow p.minCol = some ts
            rw [updPoss_apply_of_ne _ _ _ _ _ _ hne]
            exact hts
          · intro r c t hp1 hrest hr hc
            by_cases hx : r = rc.1 ∧ c = rc.2
            · exfalso
              obtain ⟨rfl, rfl⟩ := hx
              rw [show ({ p with board := setCell p.board rc.1 rc.2 v1, poss := updPoss p.poss rc.1 rc.2 none } : Puzzle).poss rc.1 rc.2 = updPoss p.poss rc.1 rc.2 none rc.1 rc.2 from rfl, updPoss_apply_self] at hp1
              cases hp1
            · rw [show ({ p with board := setCell p.board rc.1 rc.2 v1, poss := updPoss p.poss rc.1 rc.2 none } : Puzzle).poss r c = updPoss p.poss rc.1 rc.2 none r c from rfl, updPoss_apply_of_ne _ _ _ _ _ _ hx] at hp1
              refine hMI.2 r c t hp1 ?_ hr hc
              intro hmem
              rcases List.mem_cons.mp hmem with heq2 | hmem'
              · exact hx ⟨congrArg Prod.fst heq2, congrArg Prod.snd heq2⟩
              · exact hrest hmem'
        obtain ⟨hWFq, hframe, hclue, hnocreate, hres⟩ :=
          ih _ n res q heq hin' hnd' hsort' hWF1 hMI1
        refine ⟨hWFq, ?_, ?_, ?_, ?_⟩
        · intro r c hm
          have hm' : ((r, c) : Nat × Nat) ∉ rest :=
            fun h => hm (List.mem_cons_of_mem _ h)
          have hx : ¬(r = rc.1 ∧ c = rc.2) := by
            rintro ⟨rfl, rfl⟩
            exact hm (hrceta ▸ List.mem_cons_self rc rest)
          obtain ⟨hfp, hfb⟩ := hframe r c hm'
          constructor
          · rw [hfp]
            exact updPoss_apply_of_ne _ _ _ _ _ _ hx
          · rw [hfb]
            exact setCell_apply_of_ne _ _ _ _ _ _ hx
        · intro r c h0
          have hx : ¬(r = rc.1 ∧ c = rc.2) := by
            rintro ⟨rfl, rfl⟩
            exact h0 hblank
          have hb1 : setCell p.board rc.1 rc.2 v1 r c = p.board r c :=
            setCell_apply_of_ne _ _ _ _ _ _ hx
          rw [hclue r c (by
            show setCell p.board rc.1 rc.2 v1 r c ≠ 0
            rw [hb1]
            exact h0)]
          exact hb1
        · intro r c hnone
          have hx : ¬(r = rc.1 ∧ c = rc.2) := by
            rintro ⟨rfl, rfl⟩
            rw [hposs] at hnone
            cases hnone
          apply hnocreate
          show updPoss p.poss rc.1 rc.2 none r c = none
          rw [updPoss_apply_of_ne _ _ _ _ _ _ hx]
          exact hnone
        · intro h0
          obtain ⟨hcount, hkept, hMIq⟩ := hres h0
          have hqrc : q.poss rc.1 rc.2 = none := by
            rw [(hframe rc.1 rc.2 (hrceta ▸ hrcnmem)).1]
            exact updPoss_apply_self _ _ _ _
          refine ⟨?_, ?_, hMIq⟩
          · rw [List.filter_cons]
            simp only [hqrc, Option.isSome_none, Bool.false_eq_true, if_false]
            exact hcount
          · intro x hx t hxt
            rcases List.mem_cons.mp hx with rfl | hx'
            · rw [hqrc] at hxt
              cases hxt
            · exact hkept x hx' t hxt
      · -- two or more candidates survive: the cell stays blank and counts
        have hkpmem : ∀ v ∈ v1 :: v2 :: tl, v ∈ s := by
          intro v hv
          exact List.mem_of_mem_filter (hks ▸ hv)
        have hkppw : List.Pairwise (· < ·) (v1 :: v2 :: tl) := by
          rw [← hks]
          exact hpw.sublist (List.filter_sublist s)
        have hkpbd : ∀ v ∈ v1 :: v2 :: tl, 1 ≤ v ∧ v ≤ 9 :=
          fun v hv => hbd v (hkpmem v hv)
        have hkplen9 : (v1 :: v2 :: tl).length ≤ 9 :=
          length_le_nine _ hkppw hkpbd
        by_cases hmin : (v1 :: v2 :: tl).length < p.minPossibilities
        · -- the MRV tracker is updated to this cell
          rw [trimGo_step_keep_update p rc rest n s v1 v2 tl hposs hblank hks hmin] at heq
          have hWF1 : WF { p with poss := updPoss p.poss rc.1 rc.2 (some (v1 :: v2 :: tl)), minPossibilities := (v1 :: v2 :: tl).length, minRow := rc.1, minCol := rc.2 } := by
            intro r hr c hc
            show cellOk p.board r c
              (updPoss p.poss rc.1 rc.2 (some (v1 :: v2 :: tl)) r c)
            by_cases hx : r = rc.1 ∧ c = rc.2
            · obtain ⟨rfl, rfl⟩ := hx
              rw [updPoss_apply_self]
              exact ⟨hblank, hkppw, hkpbd⟩
            · rw [updPoss_apply_of_ne _ _ _ _ _ _ hx]
              exact hWF r hr c hc
          have hMI1 : MInv { p with poss := updPoss p.poss rc.1 rc.2 (some (v1 :: v2 :: tl)), minPossibilities := (v1 :: v2 :: tl).length, minRow := rc.1, minCol := rc.2 } rest := by
            constructor
            · intro _
              refine ⟨hrceta ▸ hrcnmem, hr9, hc9, hkplen9,
                ⟨v1 :: v2 :: tl, updPoss_apply_self _ _ _ _, rfl⟩, ?_⟩
              intro x hx
              exact hrceta ▸ hltall x hx
            · intro r c t hp1 hrest hr hc
              by_cases hx : r = rc.1 ∧ c = rc.2
              · obtain ⟨rfl, rfl⟩ := hx
                rw [show ({ p with poss := updPoss p.poss rc.1 rc.2 (some (v1 :: v2 :: tl)), minPossibilities := (v1 :: v2 :: tl).length, minRow := rc.1, minCol := rc.2 } : Puzzle).poss rc.1 rc.2 = updPoss p.poss rc.1 rc.2 (some (v1 :: v2 :: tl)) rc.1 rc.2 from rfl,
                  updPoss_apply_self] at hp1
                injection hp1 with hp1'
                subst hp1'
                exact ⟨le_refl _, fun _ => Or.inr rfl⟩
              · rw [show ({ p with poss := updPoss p.poss rc.1 rc.2 (some (v1 :: v2 :: tl)), minPossibilities := (v1 :: v2 :: tl).length, minRow := rc.1, minCol := rc.2 } : Puzzle).poss r c = updPoss p.poss rc.1 rc.2 (some (v1 :: v2 :: tl)) r c from rfl,
                  updPoss_apply_of_ne _ _ _ _ _ _ hx] at hp1
                have hnotc : ((r, c) : Nat × Nat) ∉ rc :: rest := by
                  intro hmem
                  rcases List.mem_cons.mp hmem with heq2 | hmem'
                  · exact hx ⟨congrArg Prod.fst heq2, congrArg Prod.snd heq2⟩
                  · exact hrest hmem'
                obtain ⟨hminle, _⟩ := hMI.2 r c t hp1 hnotc hr hc
                constructor
                · show (v1 :: v2 :: tl).length ≤ t.length
                  omega
                · intro hteq
                  exfalso
                  dsimp only at hteq
                  omega
          obtain ⟨hWFq, hframe, hclue, hnocreate, hres⟩ :=
            ih _ (n + 1) res q heq hin' hnd' hsort' hWF1 hMI1
          refine ⟨hWFq, ?_, ?_, ?_, ?_⟩
          · intro r c hm
            have hm' : ((r, c) : Nat × Nat) ∉ rest :=
              fun h => hm (List.mem_cons_of_mem _ h)
            have hx : ¬(r = rc.1 ∧ c = rc.2) := by
              rintro ⟨rfl, rfl⟩
              exact hm (hrceta ▸ List.mem_cons_self rc rest)
            obtain ⟨hfp, hfb⟩ := hframe r c hm'
            constructor
            · rw [hfp]
              exact updPoss_apply_of_ne _ _ _ _ _ _ hx
            · rw [hfb]
          · intro r c h0
            exact hclue r c h0
          · intro r c hnone
            have hx : ¬(r = rc.1 ∧ c = rc.2) := by
              rintro ⟨rfl, rfl⟩
              rw [hposs] at hnone
              cases hnone
            apply hnocreate
            show updPoss p.poss rc.1 rc.2 (some (v1 :: v2 :: tl)) r c = none
            rw [updPoss_apply_of_ne _ _ _ _ _ _ hx]
            exact hnone
          · intro h0
            obtain ⟨hcount, hkept, hMIq⟩ := hres h0
            have hqrc : q.poss rc.1 rc.2 = some (v1 :: v2 :: tl) := by
              rw [(hframe rc.1 rc.2 (hrceta ▸ hrcnmem)).1]
              exact updPoss_apply_self _ _ _ _
            refine ⟨?_, ?_, hMIq⟩
            · rw [List.filter_cons]
              simp only [hqrc, Option.isSome_some, if_true]
              rw [hcount]
              simp only [List.length_cons]
              push_cast
              omega
            · intro x hx t hxt
              rcases List.mem_cons.mp hx with rfl | hx'
              · rw [hqrc] at hxt
                injection hxt with hxt'
                subst hxt'
                simp
              · exact hkept x hx' t hxt
        · -- the MRV tracker keeps its earlier, no larger, minimum
          rw [trimGo_step_keep_noupdate p rc rest n s v1 v2 tl hposs hblank hks hmin] at heq
          have h10 : p.minPossibilities ≠ 10 := by
            simp only [List.length_cons] at hmin hkplen9 ⊢
            omega
          obtain ⟨hnm, hmr, hmc, hle, ⟨ts, hts, htslen⟩, hlex⟩ := hMI.1 h10
          have hnetr : ¬(p.minRow = rc.1 ∧ p.minCol = rc.2) := by
            rintro ⟨h1, h2⟩
            apply hnm
            rw [h1, h2, hrceta]
            exact List.mem_cons_self rc rest
          have hWF1 : WF { p with poss := updPoss p.poss rc.1 rc.2 (some (v1 :: v2 :: tl)) } := by
            intro r hr c hc
            show cellOk p.board r c
              (updPoss p.poss rc.1 rc.2 (some (v1 :: v2 :: tl)) r c)
            by_cases hx : r = rc.1 ∧ c = rc.2
            · obtain ⟨rfl, rfl⟩ := hx
              rw [updPoss_apply_self]
              exact ⟨hblank, hkppw, hkpbd⟩
            · rw [updPoss_apply_of_ne _ _ _ _ _ _ hx]
              exact hWF r hr c hc
          have hMI1 : MInv { p with poss := updPoss p.poss rc.1 rc.2 (some (v1 :: v2 :: tl)) } rest := by
            constructor
            · intro _
              refine ⟨fun h => hnm (List.mem_cons_of_mem _ h), hmr, hmc, hle,
                ⟨ts, ?_, htslen⟩, fun x hx => hlex x (List.mem_cons_of_mem _ hx)⟩
              show updPoss p.poss rc.1 rc.2 (some (v1 :: v2 :: tl)) p.minRow p.minCol = some ts
              rw [updPoss_apply_of_ne _ _ _ _ _ _ hnetr]
              exact hts
            · intro r c t hp1 hrest hr hc
              by_cases hx : r = rc.1 ∧ c = rc.2
              · obtain ⟨rfl, rfl⟩ := hx
                rw [show ({ p with poss := updPoss p.poss rc.1 rc.2 (some (v1 :: v2 :: tl)) } : Puzzle).poss rc.1 rc.2 = updPoss p.poss rc.1 rc.2 (some (v1 :: v2 :: tl)) rc.1 rc.2 from rfl,
                  updPoss_apply_self] at hp1
                injection hp1 with hp1'
                subst hp1'
                constructor
                · show p.minPossibilities ≤ (v1 :: v2 :: tl).length
                  omega
                · intro _
                  exact Or.inl (hrceta ▸ hlex rc (List.mem_cons_self rc rest))
              · rw [show ({ p with poss := updPoss p.poss rc.1 rc.2 (some (v1 :: v2 :: tl)) } : Puzzle).poss r c = updPoss p.poss rc.1 rc.2 (some (v1 :: v2 :: tl)) r c from rfl,
                  updPoss_apply_of_ne _ _ _ _ _ _ hx] at hp1
                have hnotc : ((r, c) : Nat × Nat) ∉ rc :: rest := by
                  intro hmem
                  rcases List.mem_cons.mp hmem with heq2 | hmem'
                  · exact hx ⟨congrArg Prod.fst heq2, congrArg Prod.snd heq2⟩
                  · exact hrest hmem'
                exact hMI.2 r c t hp1 hnotc hr hc
          obtain ⟨hWFq, hframe, hclue, hnocreate, hres⟩ :=
            ih _ (n + 1) res q heq hin' hnd' hsort' hWF1 hMI1
          refine ⟨hWFq, ?_, ?_, ?_, ?_⟩
          · intro r c hm
            have hm' : ((r, c) : Nat × Nat) ∉ rest :=
              fun h => hm (List.mem_cons_of_mem _ h)
            have hx : ¬(r = rc.1 ∧ c = rc.2) := by
              rintro ⟨rfl, rfl⟩
              exact hm (hrceta ▸ List.mem_cons_self rc rest)
            obtain ⟨hfp, hfb⟩ := hframe r c hm'
            constructor
            · rw [hfp]
              exact updPoss_apply_of_ne _ _ _ _ _ _ hx
            · rw [hfb]
          · intro r c h0
            exact hclue r c h0
          · intro r c hnone
            have hx : ¬(r = rc.1 ∧ c = rc.2) := by
              rintro ⟨rfl, rfl⟩
              rw [hposs] at hnone
              cases hnone
            apply hnocreate
            show updPoss p.poss rc.1 rc.2 (some (v1 :: v2 :: tl)) r c = none
            rw [updPoss_apply_of_ne _ _ _ _ _ _ hx]
            exact hnone
          · intro h0
            obtain ⟨hcount, hkept, hMIq⟩ := hres h0
            have hqrc : q.poss rc.1 rc.2 = some (v1 :: v2 :: tl) := by
              rw [(hframe rc.1 rc.2 (hrceta ▸ hrcnmem)).1]
              exact updPoss_apply_self _ _ _ _
            refine ⟨?_, ?_, hMIq⟩
            · rw [List.filter_cons]
              simp only [hqrc, Option.isSome_some, if_true]
              rw [hcount]
              simp only [List.length_cons]
              push_cast
              omega
            · intro x hx t hxt
              rcases List.mem_cons.mp hx with rfl | hx'
              · rw [hqrc] at hxt
                injection hxt with hxt'
                subst hxt'
                simp
              · exact hkept x hx' t hxt

end SudokuSolver

namespace SudokuSolver

theorem allCells_inrange : ∀ rc ∈ allCells, rc.1 < 9 ∧ rc.2 < 9 := by decide

theorem allCells_nodup : allCells.Nodup := by decide

theorem allCells_sorted : List.Pairwise lexLt allCells := by decide

theorem allCells_length : allCells.length = 81 := by decide

theorem WF_reset (p : Puzzle) (hWF : WF p) :
    WF { p with minPossibilities := 10, minRow := 10, minCol := 10 } :=
  fun r hr c hc => hWF r hr c hc

theorem MInv_start (p : Puzzle) :
    MInv { p with minPossibilities := 10, minRow := 10, minCol := 10 }
      allCells := by
  constructor
  · intro h10
    exact absurd rfl h10
  · intro r c t _ hnm hr hc
    exact absurd ((mem_allCells r c).mpr ⟨hr, hc⟩) hnm

/-- The master lemma, specialized to a whole `trimPossibilities` pass. -/
theorem trimPossibilities_master (p : Puzzle) (res : Int) (q : Puzzle)
    (heq : trimPossibilities p = (res, q)) (hWF : WF p) :
    WF q ∧
    (∀ r c, p.board r c ≠ 0 → q.board r c = p.board r c) ∧
    (∀ r c, p.poss r c = none → q.poss r c = none) ∧
    (∀ r c, ¬(r < 9 ∧ c < 9) → q.poss r c = p.poss r c ∧ q.board r c = p.board r c) ∧
    (0 ≤ res →
      res = (countSets q : Int) ∧
      (∀ r c, r < 9 → c < 9 → ∀ s, q.poss r c = some s → 2 ≤ s.length) ∧
      MInv q []) := by
  have heq' : trimGo allCells
      { p with minPossibilities := 10, minRow := 10, minCol := 10 } 0 =
      (res, q) := heq
  obtain ⟨hWFq, hframe, hclue, hnocreate, hres⟩ :=
    trimGo_master allCells _ 0 res q heq' allCells_inrange allCells_nodup
      allCells_sorted (WF_reset p hWF) (MInv_start p)
  refine ⟨hWFq, hclue, hnocreate, ?_, ?_⟩
  · intro r c hout
    exact hframe r c (fun hmem => hout ((mem_allCells r c).mp hmem))
  · intro h0
    obtain ⟨hcount, hkept, hMIq⟩ := hres h0
    refine ⟨by rw [hcount]; simp [countSets], ?_, hMIq⟩
    intro r c hr hc s hqs
    exact hkept (r, c) ((mem_allCells r c).mpr ⟨hr, hc⟩) s hqs

theorem filter_length_mono {α : Type} (l : List α) (f g : α → Bool)
    (h : ∀ a ∈ l, f a = true → g a = true) :
    (l.filter f).length ≤ (l.filter g).length := by
  induction l with
  | nil => simp
  | cons a rest ih =>
    have ih' := ih (fun x hx => h x (List.mem_cons_of_mem a hx))
    rw [List.filter_cons, List.filter_cons]
    by_cases hf : f a = true
    · rw [hf, h a (List.mem_cons_self a rest) hf]
      simpa using ih'
    · rw [Bool.not_eq_true] at hf
      rw [hf]
      by_cases hg : g a = true
      · rw [hg]
        simp only [if_true, List.length_cons, if_false, Bool.false_eq_true]
        omega
      · rw [Bool.not_eq_true] at hg
        rw [hg]
        simpa using ih'

theorem filter_length_flip {α : Type} [DecidableEq α] :
    ∀ (l : List α) (f g : α → Bool) (x : α), l.Nodup → x ∈ l →
      f x = true → g x = false → (∀ y ∈ l, y ≠ x → f y = g y) →
      (l.filter g).length + 1 = (l.filter f).length := by
  intro l
  induction l with
  | nil =>
    intro f g x _ hx
    cases hx
  | cons a rest ih =>
    intro f g x hnd hx hfx hgx hagree
    obtain ⟨hanr, hnd'⟩ := List.nodup_cons.mp hnd
    rw [List.filter_cons, List.filter_cons]
    rcases List.mem_cons.mp hx with rfl | hxr
    · rw [hfx, hgx]
      have hrest : rest.filter f = rest.filter g := by
        apply List.filter_congr
        intro y hy
        exact hagree y (List.mem_cons_of_mem x hy)
          (fun hyx => hanr (hyx ▸ hy))
      simp [hrest]
    · have hax : a ≠ x := fun h => hanr (h ▸ hxr)
      have hfa := hagree a (List.mem_cons_self a rest) hax
      have ih' := ih f g x hnd' hxr hfx hgx
        (fun y hy hyx => hagree y (List.mem_cons_of_mem a hy) hyx)
      rw [hfa]
      by_cases hg : g a = true
      · rw [hg]
        simpa using ih'
      · rw [Bool.not_eq_true] at hg
        rw [hg]
        simpa using ih'

theorem countSets_le_of_trim (p : Puzzle) (res : Int) (q : Puzzle)
    (heq : trimPossibilities p = (res, q)) (hWF : WF p) :
    countSets q ≤ countSets p := by
  obtain ⟨_, _, hnocreate, _, _⟩ := trimPossibilities_master p res q heq hWF
  apply filter_length_mono
  intro rc _ hq
  by_cases hp : (p.poss rc.1 rc.2).isSome
  · exact hp
  · exfalso
    rw [Option.not_isSome_iff_eq_none] at hp
    rw [hnocreate rc.1 rc.2 hp] at hq
    cases hq

theorem countSets_eq_countBlanks (p : Puzzle) (hWF : WF p) :
    countSets p = countBlanks p.board := by
  unfold countSets countBlanks
  congr 1
  apply List.filter_congr
  intro rc hrc
  obtain ⟨hr, hc⟩ := allCells_inrange rc hrc
  have hok := hWF rc.1 hr rc.2 hc
  rcases hposs : p.poss rc.1 rc.2 with _ | s
  · rw [hposs] at hok
    simp only [cellOk] at hok
    simp [hposs, hok]
  · rw [hposs] at hok
    simp only [cellOk] at hok
    simp [hposs, hok.1]

theorem countBlanks_le_81 (b : Board) : countBlanks b ≤ 81 := by
  unfold countBlanks
  calc (allCells.filter _).length ≤ allCells.length := List.length_filter_le _ _
    _ = 81 := allCells_length

theorem countBlanks_setCell (b : Board) (r c : Nat) (v : Int)
    (hb : b r c = 0) (hv : v ≠ 0) (hr : r < 9) (hc : c < 9) :
    countBlanks (setCell b r c v) + 1 = countBlanks b := by
  unfold countBlanks
  apply filter_length_flip allCells _ _ ((r, c) : Nat × Nat) allCells_nodup
    ((mem_allCells r c).mpr ⟨hr, hc⟩)
  · simp [hb]
  · simp [setCell_apply_self, hv]
  · intro y _ hyx
    have hne : ¬(y.1 = r ∧ y.2 = c) := by
      rintro ⟨h1, h2⟩
      exact hyx (Prod.ext h1 h2)
    simp [setCell_apply_of_ne b r c y.1 y.2 v hne]

theorem WF_init (b : Board) : WF (setAllPossibilities (mkPuzzle b)) := by
  intro r hr c hc
  show cellOk b r c (if r < 9 ∧ c < 9 then (if b r c = 0 then some allNine else none) else none)
  rw [if_pos ⟨hr, hc⟩]
  by_cases hb : b r c = 0
  · rw [if_pos hb]
    exact ⟨hb, by decide, by decide⟩
  · rw [if_neg hb]
    exact hb

theorem PossInRange_init (b : Board) :
    PossInRange (setAllPossibilities (mkPuzzle b)) := by
  intro r c hout
  show (if r < 9 ∧ c < 9 then (if b r c = 0 then some allNine else none) else none) = none
  rw [if_neg hout]

theorem countSets_init (b : Board) :
    countSets (setAllPossibilities (mkPuzzle b)) = countBlanks b :=
  countSets_eq_countBlanks _ (WF_init b)

end SudokuSolver

namespace SudokuSolver

/-- C1: one propagation pass.  Per cell: the surviving candidates are
exactly those that are placement-consistent (the spec-side `placementFits`)
against the board as the scan reaches the cell; an emptied set makes the
pass signal CONTRADICTION (the `false` component, returned to `solve` as
-1) at once; a singleton writes its digit into the grid and destroys the
set; otherwise the cell stays blank and is counted.  Pass-wide: a
non-contradictory pass returns exactly the number of cells still blank
after the pass. -/
theorem trimPossibilities_spec :
    (∀ (p : Puzzle) (r c : Nat) (n : Nat) (s : List Int),
      p.poss r c = some s → p.board r c = 0 →
      trimCell p r c n =
        match s.filter (fun v => decide (placementFits p.board v r c)) with
        | [] => (false, { p with poss := updPoss p.poss r c (some []) }, n)
        | [v] => (true, { p with board := setCell p.board r c v, poss := updPoss p.poss r c none }, n)
        | s' => (if s'.length < p.minPossibilities then (true, { p with poss := updPoss p.poss r c (some s'), minPossibilities := s'.length, minRow := r, minCol := c }, n + 1) else (true, { p with poss := updPoss p.poss r c (some s') }, n + 1))) ∧
    (∀ (p : Puzzle) (res : Int) (q : Puzzle),
      trimPossibilities p = (res, q) → WF p → 0 ≤ res →
      res = (countBlanks q.board : Int)) := by
  constructor
  · intro p r c n s hs hblank
    rw [trimCell_eq p r c n s hs hblank]
    have hfil : s.filter (fun v => (wouldWork p.board v r c).1) =
        s.filter (fun v => decide (placementFits p.board v r c)) := by
      apply List.filter_congr
      intro v _
      exact wouldWork_fst_eq_decide p.board v r c
    rw [hfil]
  · intro p res q heq hWF h0
    obtain ⟨hWFq, _, _, _, hres⟩ := trimPossibilities_master p res q heq hWF
    obtain ⟨hcount, _, _⟩ := hres h0
    rw [hcount, countSets_eq_countBlanks q hWFq]

/-- Witness for C1 at the concrete stalled state `stW` and its blank cell
(0,0). -/
theorem trimPossibilities_spec_witness :
    stW.poss 0 0 = some allNine ∧ stW.board 0 0 = 0 ∧
    (trimCell stW 0 0 0 =
      match allNine.filter (fun v => decide (placementFits stW.board v 0 0)) with
      | [] => (false, { stW with poss := updPoss stW.poss 0 0 (some []) }, 0)
      | [v] => (true, { stW with board := setCell stW.board 0 0 v, poss := updPoss stW.poss 0 0 none }, 0)
      | s' => (if s'.length < stW.minPossibilities then (true, { stW with poss := updPoss stW.poss 0 0 (some s'), minPossibilities := s'.length, minRow := 0, minCol := 0 }, 0 + 1) else (true, { stW with poss := updPoss stW.poss 0 0 (some s') }, 0 + 1))) ∧
    WF stW ∧ 0 ≤ (trimPossibilities stW).1 ∧
    (trimPossibilities stW).1 = (countBlanks (trimPossibilities stW).2.board : Int) :=
  ⟨rfl, rfl,
   trimPossibilities_spec.1 stW 0 0 0 allNine rfl rfl,
   by decide, by decide,
   trimPossibilities_spec.2 stW (trimPossibilities stW).1
     (trimPossibilities stW).2 rfl (by decide) (by decide)⟩

end SudokuSolver

namespace SudokuSolver

theorem trimGo_res (cells : List (Nat × Nat)) :
    ∀ (p : Puzzle) (n : Nat) (res : Int) (q : Puzzle),
      trimGo cells p n = (res, q) → res = -1 ∨ 0 ≤ res := by
  induction cells with
  | nil =>
    intro p n res q heq
    simp only [trimGo] at heq
    injection heq with h1 _
    exact Or.inr (h1 ▸ Int.natCast_nonneg n)
  | cons rc rest ih =>
    intro p n res q heq
    simp only [trimGo] at heq
    by_cases ht : (trimCell p rc.1 rc.2 n).1 = true
    · rw [if_pos ht] at heq
      exact ih _ _ _ _ heq
    · rw [if_neg ht] at heq
      injection heq with h1 _
      exact Or.inl h1.symm

theorem trimPossibilities_res (p : Puzzle) (res : Int) (q : Puzzle)
    (heq : trimPossibilities p = (res, q)) : res = -1 ∨ 0 ≤ res :=
  trimGo_res allCells _ 0 res q heq

/-- C2: when a pass stalls (`numBlank = prevNumBlank`, neither -1 nor 0),
`solve` branches on the tracked MRV cell: the cell holding the smallest
surviving candidate set, ties broken by lowest row then lowest column; its
set is strictly ascending (so candidates are tried in ascending order); the
candidate loop clones the grid with the candidate written into that cell,
recurses, accepts the first success by copying the clone's values into
exactly the blank cells of this grid, skips to the next candidate on a
failed recursion, and reports failure once the candidates run out. -/
theorem solve_branch_spec (st q : Puzzle) (res prev : Int)
    (recS : Board → Option (Bool × Board)) (pf : Nat)
    (hWF : WF st)
    (heq : trimPossibilities st = (res, q))
    (h1 : res ≠ -1) (h0 : res ≠ 0) (hp : res = prev) :
    (solveLoopAux recS (pf + 1) prev st =
      tryCandsAux recS q ((q.poss q.minRow q.minCol).getD [])) ∧
    (∃ s, q.poss q.minRow q.minCol = some s ∧
      q.minRow < 9 ∧ q.minCol < 9 ∧
      2 ≤ s.length ∧ List.Pairwise (· < ·) s ∧
      (q.poss q.minRow q.minCol).getD [] = s ∧
      (∀ r c, r < 9 → c < 9 → ∀ t, q.poss r c = some t →
        s.length ≤ t.length ∧
        (t.length = s.length → q.minRow < r ∨ (q.minRow = r ∧ q.minCol ≤ c)))) ∧
    (tryCandsAux recS q [] = some (false, q)) ∧
    (∀ v rest solved,
      recS (setCell q.board q.minRow q.minCol v) = some (true, solved) →
      tryCandsAux recS q (v :: rest) =
        some (true, { q with board := mergeBoards q.board solved })) ∧
    (∀ v rest b',
      recS (setCell q.board q.minRow q.minCol v) = some (false, b') →
      tryCandsAux recS q (v :: rest) = tryCandsAux recS q rest) ∧
    (∀ sub r c, r < 9 → c < 9 →
      (q.board r c = 0 → mergeBoards q.board sub r c = sub r c) ∧
      (q.board r c ≠ 0 → mergeBoards q.board sub r c = q.board r c)) := by
  have hge : 0 ≤ res := by
    rcases trimPossibilities_res st res q heq with h | h
    · exact absurd h h1
    · exact h
  obtain ⟨hWFq, _, _, _, hres⟩ := trimPossibilities_master st res q heq hWF
  obtain ⟨hcount, hkept, hMIq⟩ := hres hge
  -- the pass stalled with at least one surviving set, so the tracker is live
  have hpos : 1 ≤ countSets q := by
    rcases Nat.eq_zero_or_pos (countSets q) with hz | hpos
    · exfalso
      apply h0
      rw [hcount, hz]
      rfl
    · exact hpos
  have hmin10 : q.minPossibilities ≠ 10 := by
    have hne : allCells.filter (fun rc => (q.poss rc.1 rc.2).isSome) ≠ [] := by
      intro hnil
      unfold countSets at hpos
      rw [hnil] at hpos
      simp at hpos
    obtain ⟨rc, hrcmem⟩ := List.exists_mem_of_ne_nil _ hne
    obtain ⟨hrcall, hrcsome⟩ := List.mem_filter.mp hrcmem
    obtain ⟨t, ht⟩ := Option.isSome_iff_exists.mp hrcsome
    obtain ⟨hr9, hc9⟩ := allCells_inrange rc hrcall
    have hok := hWFq rc.1 hr9 rc.2 hc9
    rw [ht] at hok
    simp only [cellOk] at hok
    have htlen : t.length ≤ 9 := length_le_nine t hok.2.1 hok.2.2
    have := (hMIq.2 rc.1 rc.2 t ht (by simp) hr9 hc9).1
    omega
  obtain ⟨_, hmr9, hmc9, _, ⟨s, hs, hslen⟩, _⟩ := hMIq.1 hmin10
  refine ⟨?_, ?_, ?_, ?_, ?_, ?_⟩
  · -- the loop takes the branch arm
    show (let t := trimPossibilities st
      if t.1 = -1 then some (false, t.2)
      else if t.1 = 0 then some (true, t.2)
      else if t.1 = prev then
        tryCandsAux recS t.2 ((t.2.poss t.2.minRow t.2.minCol).getD [])
      else solveLoopAux recS pf t.1 t.2) = _
    rw [heq]
    dsimp only
    rw [if_neg h1, if_neg h0, if_pos hp]
  · refine ⟨s, hs, hmr9, hmc9, ?_, ?_, ?_, ?_⟩
    · exact hkept q.minRow q.minCol hmr9 hmc9 s hs
    · have hok := hWFq q.minRow hmr9 q.minCol hmc9
      rw [hs] at hok
      simp only [cellOk] at hok
      exact hok.2.1
    · rw [hs]
      rfl
    · intro r c hr hc t ht
      obtain ⟨hle, htie⟩ := hMIq.2 r c t ht (by simp) hr hc
      constructor
      · rw [hslen]
        exact hle
      · intro hteq
        rcases htie (hteq.trans hslen) with hlt | heq2
        · rcases hlt with h | ⟨h1', h2'⟩
          · exact Or.inl h
          · exact Or.inr ⟨h1', Nat.le_of_lt h2'⟩
        · exact Or.inr ⟨congrArg Prod.fst heq2, Nat.le_of_eq (congrArg Prod.snd heq2)⟩
  · rfl
  · intro v rest solved hrec
    show (match recS (setCell q.board q.minRow q.minCol v) with
      | none => none
      | some (true, solved') => some (true, { q with board := mergeBoards q.board solved' })
      | some (false, _) => tryCandsAux recS q rest) = _
    rw [hrec]
  · intro v rest b' hrec
    show (match recS (setCell q.board q.minRow q.minCol v) with
      | none => none
      | some (true, solved') => some (true, { q with board := mergeBoards q.board solved' })
      | some (false, _) => tryCandsAux recS q rest) = _
    rw [hrec]
  · intro sub r c hr hc
    constructor
    · intro hb
      show (if r < 9 ∧ c < 9 ∧ q.board r c = 0 then sub r c else q.board r c) = sub r c
      rw [if_pos ⟨hr, hc, hb⟩]
    · intro hb
      show (if r < 9 ∧ c < 9 ∧ q.board r c = 0 then sub r c else q.board r c) = q.board r c
      rw [if_neg (fun h => hb h.2.2)]

end SudokuSolver

namespace SudokuSolver

/-- Witness for C2 at the concrete stalled state `stW` (4 blanks, each with
candidates {1,2}; the pass returns 4, matching `prev = 4`). -/
theorem solve_branch_spec_witness :
    WF stW ∧ trimPossibilities stW = ((4 : Int), qW) ∧
    ((4 : Int) ≠ -1) ∧ ((4 : Int) ≠ 0) ∧
    ((solveLoopAux (fun _ => none) (0 + 1) 4 stW =
      tryCandsAux (fun _ => none) qW ((qW.poss qW.minRow qW.minCol).getD [])) ∧
    (∃ s, qW.poss qW.minRow qW.minCol = some s ∧
      qW.minRow < 9 ∧ qW.minCol < 9 ∧
      2 ≤ s.length ∧ List.Pairwise (· < ·) s ∧
      (qW.poss qW.minRow qW.minCol).getD [] = s ∧
      (∀ r c, r < 9 → c < 9 → ∀ t, qW.poss r c = some t →
        s.length ≤ t.length ∧
        (t.length = s.length → qW.minRow < r ∨ (qW.minRow = r ∧ qW.minCol ≤ c)))) ∧
    (tryCandsAux (fun _ => none) qW [] = some (false, qW)) ∧
    (∀ v rest solved,
      (fun _ => (none : Option (Bool × Board))) (setCell qW.board qW.minRow qW.minCol v) = some (true, solved) →
      tryCandsAux (fun _ => none) qW (v :: rest) =
        some (true, { qW with board := mergeBoards qW.board solved })) ∧
    (∀ v rest b',
      (fun _ => (none : Option (Bool × Board))) (setCell qW.board qW.minRow qW.minCol v) = some (false, b') →
      tryCandsAux (fun _ => none) qW (v :: rest) = tryCandsAux (fun _ => none) qW rest) ∧
    (∀ sub r c, r < 9 → c < 9 →
      (qW.board r c = 0 → mergeBoards qW.board sub r c = sub r c) ∧
      (qW.board r c ≠ 0 → mergeBoards qW.board sub r c = qW.board r c))) := by
  have h4 : trimPossibilities stW = ((4 : Int), qW) := Prod.ext (by decide) rfl
  exact ⟨by decide, h4, by decide, by decide,
    solve_branch_spec stW qW 4 4 (fun _ => none) 0 (by decide) h4
      (by decide) (by decide) rfl⟩

end SudokuSolver

namespace SudokuSolver

/-- After a stalling (non-contradictory, non-solved) pass the MRV trackers
name an in-range blank cell with a surviving set of 2..9 digits. -/
theorem stalled_min_facts (st q : Puzzle) (res : Int)
    (heq : trimPossibilities st = (res, q)) (hWF : WF st)
    (h1 : res ≠ -1) (h0 : res ≠ 0) :
    ∃ s, q.poss q.minRow q.minCol = some s ∧
      q.minRow < 9 ∧ q.minCol < 9 ∧ 2 ≤ s.length ∧
      (∀ v ∈ s, 1 ≤ v ∧ v ≤ 9) ∧ q.board q.minRow q.minCol = 0 := by
  have hge : 0 ≤ res := by
    rcases trimPossibilities_res st res q heq with h | h
    · exact absurd h h1
    · exact h
  obtain ⟨hWFq, _, _, _, hres⟩ := trimPossibilities_master st res q heq hWF
  obtain ⟨hcount, hkept, hMIq⟩ := hres hge
  have hpos : 1 ≤ countSets q := by
    rcases Nat.eq_zero_or_pos (countSets q) with hz | hpos
    · exfalso
      apply h0
      rw [hcount, hz]
      rfl
    · exact hpos
  have hmin10 : q.minPossibilities ≠ 10 := by
    have hne : allCells.filter (fun rc => (q.poss rc.1 rc.2).isSome) ≠ [] := by
      intro hnil
      unfold countSets at hpos
      rw [hnil] at hpos
      simp at hpos
    obtain ⟨rc, hrcmem⟩ := List.exists_mem_of_ne_nil _ hne
    obtain ⟨hrcall, hrcsome⟩ := List.mem_filter.mp hrcmem
    obtain ⟨t, ht⟩ := Option.isSome_iff_exists.mp hrcsome
    obtain ⟨hr9, hc9⟩ := allCells_inrange rc hrcall
    have hok := hWFq rc.1 hr9 rc.2 hc9
    rw [ht] at hok
    simp only [cellOk] at hok
    have htlen : t.length ≤ 9 := length_le_nine t hok.2.1 hok.2.2
    have := (hMIq.2 rc.1 rc.2 t ht (by simp) hr9 hc9).1
    omega
  obtain ⟨_, hmr9, hmc9, _, ⟨s, hs, _⟩, _⟩ := hMIq.1 hmin10
  have hok := hWFq q.minRow hmr9 q.minCol hmc9
  rw [hs] at hok
  simp only [cellOk] at hok
  exact ⟨s, hs, hmr9, hmc9, hkept q.minRow q.minCol hmr9 hmc9 s hs,
    hok.2.2, hok.1⟩

theorem tryCands_term (recS : Board → Option (Bool × Board)) (q : Puzzle) :
    ∀ l : List Int,
      (∀ v ∈ l, ∃ r, recS (setCell q.board q.minRow q.minCol v) = some r) →
      ∃ r, tryCandsAux recS q l = some r := by
  intro l
  induction l with
  | nil =>
    intro _
    exact ⟨(false, q), rfl⟩
  | cons v rest ih =>
    intro h
    obtain ⟨r, hr⟩ := h v (List.mem_cons_self v rest)
    show ∃ r', (match recS (setCell q.board q.minRow q.minCol v) with
      | none => none
      | some (true, solved) => some (true, { q with board := mergeBoards q.board solved })
      | some (false, _) => tryCandsAux recS q rest) = some r'
    rw [hr]
    rcases r with ⟨_ | _, b'⟩
    · exact ih (fun w hw => h w (List.mem_cons_of_mem v hw))
    · exact ⟨(true, { q with board := mergeBoards q.board b' }), rfl⟩

/-- Fuel sufficiency for the branch step out of a stalled state. -/
theorem stalled_branch_term (st q : Puzzle) (res : Int) (N : Nat)
    (recS : Board → Option (Bool × Board))
    (heq : trimPossibilities st = (res, q)) (hWF : WF st)
    (h1 : res ≠ -1) (h0 : res ≠ 0)
    (hrec : ∀ b', countBlanks b' < N → ∃ r, recS b' = some r)
    (hN : countSets q ≤ N) :
    ∃ r, tryCandsAux recS q ((q.poss q.minRow q.minCol).getD []) = some r := by
  obtain ⟨s, hs, hmr9, hmc9, hs2, hsbd, hblank⟩ :=
    stalled_min_facts st q res heq hWF h1 h0
  rw [hs]
  apply tryCands_term
  intro v hv
  apply hrec
  have hv0 : v ≠ 0 := by
    have := hsbd v hv
    omega
  have hWFq := (trimPossibilities_master st res q heq hWF).1
  have hdec := countBlanks_setCell q.board q.minRow q.minCol v hblank hv0 hmr9 hmc9
  have hger : countSets q = countBlanks q.board := countSets_eq_countBlanks q hWFq
  have hqpos : 1 ≤ countBlanks q.board := by
    rw [← hger]
    have hfilterpos : (q.poss q.minRow q.minCol).isSome = true := by
      rw [hs]
      rfl
    have hmem : ((q.minRow, q.minCol) : Nat × Nat) ∈
        allCells.filter (fun rc => (q.poss rc.1 rc.2).isSome) :=
      List.mem_filter.mpr ⟨(mem_allCells _ _).mpr ⟨hmr9, hmc9⟩, hfilterpos⟩
    have := List.length_pos.mpr (List.ne_nil_of_mem hmem)
    unfold countSets
    omega
  omega

/-- Fuel sufficiency for the solve loop, from the second pass on (where
`prevNumBlank` equals the surviving-set count of the incoming state). -/
theorem solveLoop_term (N : Nat) (recS : Board → Option (Bool × Board))
    (hrec : ∀ b', countBlanks b' < N → ∃ r, recS b' = some r) :
    ∀ (pf : Nat) (st : Puzzle),
      WF st → countSets st ≤ N → countSets st + 1 ≤ pf →
      ∃ r, solveLoopAux recS pf ((countSets st : Int)) st = some r := by
  intro pf
  induction pf with
  | zero =>
    intro st _ _ hfuel
    omega
  | succ k ih =>
    intro st hWF hN hfuel
    rcases hteq : trimPossibilities st with ⟨res, q⟩
    show ∃ r, (let t := trimPossibilities st
      if t.1 = -1 then some (false, t.2)
      else if t.1 = 0 then some (true, t.2)
      else if t.1 = (countSets st : Int) then
        tryCandsAux recS t.2 ((t.2.poss t.2.minRow t.2.minCol).getD [])
      else solveLoopAux recS k t.1 t.2) = some r
    rw [hteq]
    dsimp only
    by_cases hm1 : res = -1
    · rw [if_pos hm1]
      exact ⟨(false, q), rfl⟩
    · rw [if_neg hm1]
      by_cases hz : res = 0
      · rw [if_pos hz]
        exact ⟨(true, q), rfl⟩
      · rw [if_neg hz]
        have hge : 0 ≤ res := by
          rcases trimPossibilities_res st res q hteq with h | h
          · exact absurd h hm1
          · exact h
        have hcount : res = (countSets q : Int) :=
          ((trimPossibilities_master st res q hteq hWF).2.2.2.2 hge).1
        have hWFq := (trimPossibilities_master st res q hteq hWF).1
        have hle : countSets q ≤ countSets st :=
          countSets_le_of_trim st res q hteq hWF
        by_cases hstall : res = (countSets st : Int)
        · rw [if_pos hstall]
          exact stalled_branch_term st q res N recS hteq hWF hm1 hz hrec
            (le_trans hle hN)
        · rw [if_neg hstall]
          have hlt : countSets q < countSets st := by
            rcases Nat.lt_or_ge (countSets q) (countSets st) with h | h
            · exact h
            · exfalso
              apply hstall
              rw [hcount]
              have : countSets q = countSets st := le_antisymm hle h
              rw [this]
          rw [hcount]
          exact ih q hWFq (le_trans (Nat.le_of_lt hlt) hN) (by omega)

/-- Fuel sufficiency for `solve`: one more than the number of blanks always
suffices for the branch recursion, and 83 passes always suffice for each
loop. -/
theorem solveF_term : ∀ (fuel : Nat) (b : Board),
    countBlanks b < fuel → ∃ r, solveF fuel b = some r := by
  intro fuel
  induction fuel with
  | zero =>
    intro b h
    omega
  | succ f ihf =>
    intro b hlt
    have hWF0 := WF_init b
    have hc0 := countSets_init b
    suffices h : ∃ r', solveLoopAux (solveF f) 83 50
        (setAllPossibilities (mkPuzzle b)) = some r' by
      obtain ⟨r', hr'⟩ := h
      refine ⟨(r'.1, r'.2.board), ?_⟩
      show (solveLoopAux (solveF f) 83 50 (setAllPossibilities (mkPuzzle b))).map
        (fun rp => (rp.1, rp.2.board)) = _
      rw [hr']
      rfl
    have hrec : ∀ b', countBlanks b' < countBlanks b →
        ∃ r, solveF f b' = some r := by
      intro b' hb'
      exact ihf b' (by omega)
    rcases hteq : trimPossibilities (setAllPossibilities (mkPuzzle b)) with ⟨res, q⟩
    show ∃ r, (let t := trimPossibilities (setAllPossibilities (mkPuzzle b))
      if t.1 = -1 then some (false, t.2)
      else if t.1 = 0 then some (true, t.2)
      else if t.1 = (50 : Int) then
        tryCandsAux (solveF f) t.2 ((t.2.poss t.2.minRow t.2.minCol).getD [])
      else solveLoopAux (solveF f) 82 t.1 t.2) = some r
    rw [hteq]
    dsimp only
    by_cases hm1 : res = -1
    · rw [if_pos hm1]
      exact ⟨(false, q), rfl⟩
    · rw [if_neg hm1]
      by_cases hz : res = 0
      · rw [if_pos hz]
        exact ⟨(true, q), rfl⟩
      · rw [if_neg hz]
        have hge : 0 ≤ res := by
          rcases trimPossibilities_res _ res q hteq with h | h
          · exact absurd h hm1
          · exact h
        have hcount : res = (countSets q : Int) :=
          ((trimPossibilities_master _ res q hteq hWF0).2.2.2.2 hge).1
        have hWFq := (trimPossibilities_master _ res q hteq hWF0).1
        have hle : countSets q ≤ countBlanks b := by
          rw [← hc0]
          exact countSets_le_of_trim _ res q hteq hWF0
        by_cases hstall : res = (50 : Int)
        · rw [if_pos hstall]
          exact stalled_branch_term _ q res (countBlanks b) (solveF f) hteq
            hWF0 hm1 hz hrec hle
        · rw [if_neg hstall]
          rw [hcount]
          exact solveLoop_term (countBlanks b) (solveF f) hrec 82 q hWFq hle
            (by have := countBlanks_le_81 b; omega)

end SudokuSolver

namespace SudokuSolver

/-- C6 (amended): for every input grid `solve` terminates with a boolean —
fuel 82 for the branch recursion always suffices, and more precisely any
fuel exceeding the number of blank cells does, since every recursive
sub-call starts from a grid with at least one more assigned cell (so the
recursion depth is bounded by the at most 81 blanks).  The original claim's
final conjunct is dropped: a puzzle with no valid completion can still get
`true` when its conflicting clues sit only in fully filled units (see the
counterexample). -/
theorem solve_terminates :
    (∀ b : Board, ∃ r, solveF 82 b = some r) ∧
    (∀ (fuel : Nat) (b : Board), countBlanks b < fuel →
      ∃ r, solveF fuel b = some r) := by
  refine ⟨?_, solveF_term⟩
  intro b
  exact solveF_term 82 b (by have := countBlanks_le_81 b; omega)

/-- Witness for C6 (amended) at `gOneBlank` with fuel 2. -/
theorem solve_terminates_witness :
    countBlanks gOneBlank < 2 ∧ ∃ r, solveF 2 gOneBlank = some r :=
  ⟨by decide, solve_terminates.2 2 gOneBlank (by decide)⟩

/-- Counterexample to C6 as stated: `gBadTrue` has no valid completion (its
clues place the digit 2 at both (0,0) and (0,1)), yet `solve` returns true:
the duplicated clues lie in units containing no blank cell, so no
`wouldWork` check ever looks at them. -/
theorem solve_true_on_unsolvable :
    (¬ ∃ b', ExtendsClues gBadTrue b' ∧ ValidComplete b') ∧
    (solveF 82 gBadTrue).map Prod.fst = some true := by
  constructor
  · rintro ⟨b', hext, _, hrows, _, _⟩
    have h00 : b' 0 0 = 2 := hext 0 0 (by omega) (by omega) (by decide)
    have h01 : b' 0 1 = 2 := hext 0 1 (by omega) (by omega) (by decide)
    have hrow := hrows 0 (by omega)
    have hlist : rowList b' 0 = [b' 0 0, b' 0 1, b' 0 2, b' 0 3, b' 0 4,
        b' 0 5, b' 0 6, b' 0 7, b' 0 8] := rfl
    rw [hlist, h00, h01] at hrow
    have := hrow 2 (by simp) (by decide)
    simp [List.count_cons] at this
  · decide

/-- Propagation and the success copy-back only ever write blank cells, so
every filled cell of the input grid survives any `solve` outcome. -/
theorem tryCands_keeps_filled (recS : Board → Option (Bool × Board))
    (q : Puzzle) : ∀ (l : List Int) (rp : Bool × Puzzle),
      tryCandsAux recS q l = some rp →
      ∀ r c, r < 9 → c < 9 → q.board r c ≠ 0 → rp.2.board r c = q.board r c := by
  intro l
  induction l with
  | nil =>
    intro rp heq r c _ _ _
    injection heq with h1
    rw [← h1]
  | cons v rest ih =>
    intro rp heq r c hr hc hnz
    rw [show tryCandsAux recS q (v :: rest) =
      (match recS (setCell q.board q.minRow q.minCol v) with
        | none => none
        | some (true, solved) =>
          some (true, { q with board := mergeBoards q.board solved })
        | some (false, _) => tryCandsAux recS q rest) from rfl] at heq
    rcases hrec : recS (setCell q.board q.minRow q.minCol v) with _ | ⟨_ | _, b'⟩ <;>
      rw [hrec] at heq
    · cases heq
    · exact ih rp heq r c hr hc hnz
    · injection heq with h1
      rw [← h1]
      show mergeBoards q.board b' r c = q.board r c
      show (if r < 9 ∧ c < 9 ∧ q.board r c = 0 then b' r c else q.board r c) = _
      rw [if_neg (fun h => hnz h.2.2)]

theorem solveLoop_keeps_filled (recS : Board → Option (Bool × Board)) :
    ∀ (pf : Nat) (prev : Int) (st : Puzzle) (rp : Bool × Puzzle),
      WF st → solveLoopAux recS pf prev st = some rp →
      ∀ r c, r < 9 → c < 9 → st.board r c ≠ 0 →
      rp.2.board r c = st.board r c := by
  intro pf
  induction pf with
  | zero =>
    intro prev st rp _ heq
    cases heq
  | succ k ih =>
    intro prev st rp hWF heq r c hr hc hnz
    rcases hteq : trimPossibilities st with ⟨res, q⟩
    obtain ⟨hWFq, hclue, _, _, _⟩ := trimPossibilities_master st res q hteq hWF
    have hq : q.board r c = st.board r c := hclue r c hnz
    rw [show solveLoopAux recS (k + 1) prev st =
      (let t := trimPossibilities st
       if t.1 = -1 then some (false, t.2)
       else if t.1 = 0 then some (true, t.2)
       else if t.1 = prev then
         tryCandsAux recS t.2 ((t.2.poss t.2.minRow t.2.minCol).getD [])
       else solveLoopAux recS k t.1 t.2) from rfl, hteq] at heq
    dsimp only at heq
    by_cases hm1 : res = -1
    · rw [if_pos hm1] at heq
      injection heq with h1
      rw [← h1]
      exact hq
    · rw [if_neg hm1] at heq
      by_cases hz : res = 0
      · rw [if_pos hz] at heq
        injection heq with h1
        rw [← h1]
        exact hq
      · rw [if_neg hz] at heq
        by_cases hst : res = prev
        · rw [if_pos hst] at heq
          rw [tryCands_keeps_filled recS q _ rp heq r c hr hc (hq ▸ hnz)]
          exact hq
        · rw [if_neg hst] at heq
          rw [ih res q rp hWFq heq r c hr hc (hq ▸ hnz)]
          exact hq

theorem solveF_keeps_filled : ∀ (fuel : Nat) (b : Board) (p : Bool × Board),
    solveF fuel b = some p →
    ∀ r c, r < 9 → c < 9 → b r c ≠ 0 → p.2 r c = b r c := by
  intro fuel b p heq r c hr hc hnz
  cases fuel with
  | zero => cases heq
  | succ f =>
    rcases hloop : solveLoopAux (solveF f) 83 50
        (setAllPossibilities (mkPuzzle b)) with _ | rp
    · rw [show solveF (f + 1) b = (solveLoopAux (solveF f) 83 50
        (setAllPossibilities (mkPuzzle b))).map (fun rp => (rp.1, rp.2.board))
        from rfl, hloop] at heq
      cases heq
    · rw [show solveF (f + 1) b = (solveLoopAux (solveF f) 83 50
        (setAllPossibilities (mkPuzzle b))).map (fun rp => (rp.1, rp.2.board))
        from rfl, hloop] at heq
      injection heq with h1
      rw [← h1]
      exact solveLoop_keeps_filled (solveF f) 83 50 _ rp (WF_init b) hloop
        r c hr hc hnz

/-- C10: solve never overwrites a given clue — any cell that is non-zero
when `solve` is called holds the same value when it returns, whether the
result is true or false. -/
theorem solve_preserves_clues (fuel : Nat) (b : Board) (r c : Nat)
    (hr : r < 9) (hc : c < 9) (hnz : b r c ≠ 0) :
    ∀ p, solveF fuel b = some p → p.2 r c = b r c :=
  fun p hp => solveF_keeps_filled fuel b p hp r c hr hc hnz

/-- Witness for C10 at `gOneBlank` (a successful solve) and clue (0,0). -/
theorem solve_preserves_clues_witness :
    (0 : Nat) < 9 ∧ gOneBlank 0 0 ≠ 0 ∧
    ((solveF 2 gOneBlank).get (by decide)).2 0 0 = gOneBlank 0 0 :=
  ⟨by decide, by decide,
   solve_preserves_clues 2 gOneBlank 0 0 (by decide) (by decide) (by decide)
     ((solveF 2 gOneBlank).get (by decide)) (Option.some_get _).symm⟩

/-- C7 (amended): exploratory branch values are written only into clones,
and whenever `solve` returns false every cell that was non-blank at the
call keeps its value; blank cells, however, may have received forced
assignments from propagation before the failure, so the grid as a whole is
not restored. -/
theorem solve_failure_keeps_filled (fuel : Nat) (b : Board) (r c : Nat)
    (hr : r < 9) (hc : c < 9) (hnz : b r c ≠ 0) :
    ∀ p, solveF fuel b = some p → p.1 = false → p.2 r c = b r c :=
  fun p hp _ => solveF_keeps_filled fuel b p hp r c hr hc hnz

/-- Witness for C7 (amended) at `gMutated`, where solve fails, and the clue
cell (0,1). -/
theorem solve_failure_keeps_filled_witness :
    gMutated 0 1 ≠ 0 ∧
    ((solveF 82 gMutated).get (by decide)).1 = false ∧
    ((solveF 82 gMutated).get (by decide)).2 0 1 = gMutated 0 1 :=
  ⟨by decide, by decide,
   solve_failure_keeps_filled 82 gMutated 0 1 (by decide) (by decide)
     (by decide) ((solveF 82 gMutated).get (by decide))
     (Option.some_get _).symm (by decide)⟩

/-- Counterexample to C7 as stated: on `gMutated`, `solve` returns false
yet the caller's grid changed — the first pass wrote the forced 1 into the
blank cell (0,0) before the contradiction at (1,3) was found. -/
theorem solve_failure_mutates :
    (solveF 82 gMutated).map Prod.fst = some false ∧
    ((solveF 82 gMutated).getD (true, fun _ _ => 0)).2 0 0 = 1 ∧
    gMutated 0 0 = 0 := by
  refine ⟨by decide, by decide, by decide⟩

set_option maxRecDepth 100000 in
set_option maxHeartbeats 2000000 in
/-- C3 evidence: `gFifty` has 51 blank cells and its first pass assigns
exactly one forced cell, leaving 50 — but 50 is exactly the `prevNumBlank`
sentinel `solve` starts with (the source comments it as "more than
possible", though up to 81 blanks are possible), so the very first loop
iteration of `solve` takes the branch arm even though the pass made
progress. -/
theorem first_pass_sentinel_collision :
    countBlanks gFifty = 51 ∧
    (trimPossibilities (setAllPossibilities (mkPuzzle gFifty))).1 = 50 ∧
    (∀ (recS : Board → Option (Bool × Board)) (pf : Nat),
      solveLoopAux recS (pf + 1) 50 (setAllPossibilities (mkPuzzle gFifty)) =
        tryCandsAux recS
          (trimPossibilities (setAllPossibilities (mkPuzzle gFifty))).2
          (((trimPossibilities (setAllPossibilities (mkPuzzle gFifty))).2.poss
              (trimPossibilities (setAllPossibilities (mkPuzzle gFifty))).2.minRow
              (trimPossibilities (setAllPossibilities (mkPuzzle gFifty))).2.minCol).getD [])) := by
  have h50 : (trimPossibilities (setAllPossibilities (mkPuzzle gFifty))).1 = 50 := by
    decide
  refine ⟨by decide, h50, ?_⟩
  intro recS pf
  show (let t := trimPossibilities (setAllPossibilities (mkPuzzle gFifty))
    if t.1 = -1 then some (false, t.2)
    else if t.1 = 0 then some (true, t.2)
    else if t.1 = (50 : Int) then
      tryCandsAux recS t.2 ((t.2.poss t.2.minRow t.2.minCol).getD [])
    else solveLoopAux recS pf t.1 t.2) = _
  dsimp only
  rw [if_neg (by rw [h50]; decide), if_neg (by rw [h50]; decide), if_pos h50]

end SudokuSolver

namespace SudokuSolver

/-- C8 evidence: parsing the malformed `badContent` (too few rows, a
non-numeric token "x" in row 1) hits the `stoi` exception, which the
constructor catches and swallows (the flag is false and its only effect is
a stderr print): a puzzle object is still produced, no failure reaches the
caller, row 0 and cell (1,0) hold parsed values, while every cell the loops
never reached — here (5,5) — still holds the uninitialized memory
`uninit`, i.e. the core proceeds with an arbitrary, corrupt grid. -/
theorem construct_malformed_swallowed (uninit : Board) :
    (mkPuzzleFromContent uninit badContent).2 = false ∧
    (mkPuzzleFromContent uninit badContent).1.board 0 0 = 1 ∧
    (mkPuzzleFromContent uninit badContent).1.board 1 0 = 4 ∧
    (mkPuzzleFromContent uninit badContent).1.board 5 5 = uninit 5 5 := by
  refine ⟨rfl, rfl, rfl, rfl⟩

theorem isRowOrColOkV_fst (vb : Bool) (b : Board) (row : Nat)
    (which : RowOrCol) :
    (isRowOrColOkV vb b row which).1 = isRowOrColOk b row which := by
  unfold isRowOrColOkV isRowOrColOk
  rcases h : checkVals (rowColCells b row which) [] <;> simp [h]

theorem isSubmatrixOkV_fst (vb : Bool) (b : Board) (sr sc : Nat) :
    (isSubmatrixOkV vb b sr sc).1 = isSubmatrixOk b sr sc := by
  unfold isSubmatrixOkV isSubmatrixOk
  rcases h : checkVals (boxCells b sr sc) [] <;> simp [h]

theorem wouldWorkV_fst (vb : Bool) (b : Board) (value : Int)
    (atRow atCol : Nat) :
    (wouldWorkV vb b value atRow atCol).1 = wouldWork b value atRow atCol := by
  unfold wouldWorkV wouldWork
  simp only [isRowOrColOkV_fst, isSubmatrixOkV_fst]
  by_cases h1 : isRowOrColOk (setCell b atRow atCol value) atRow RowOrCol.ROW <;>
    by_cases h2 : isRowOrColOk (setCell b atRow atCol value) atCol RowOrCol.COL <;>
      simp [h1, h2]

theorem trimFilterV_fst (vb : Bool) (r c : Nat) : ∀ (s : List Int) (b : Board),
    (trimFilterV vb b r c s).1 = trimFilter b r c s := by
  intro s
  induction s with
  | nil =>
    intro b
    rfl
  | cons v rest ih =>
    intro b
    show ((if (wouldWorkV vb b v r c).1.1 then
        ((v :: (trimFilterV vb (wouldWorkV vb b v r c).1.2 r c rest).1.1,
          (trimFilterV vb (wouldWorkV vb b v r c).1.2 r c rest).1.2),
         (wouldWorkV vb b v r c).2 ++ (trimFilterV vb (wouldWorkV vb b v r c).1.2 r c rest).2)
      else ((trimFilterV vb (wouldWorkV vb b v r c).1.2 r c rest).1,
        (wouldWorkV vb b v r c).2 ++ (trimFilterV vb (wouldWorkV vb b v r c).1.2 r c rest).2)).1) = _
    rw [wouldWorkV_fst]
    show _ = (let wb := wouldWork b v r c
      let fr := trimFilter wb.2 r c rest
      if wb.1 then (v :: fr.1, fr.2) else fr)
    by_cases h : (wouldWork b v r c).1 <;> simp [h, ih]

theorem trimCellV_fst (vb : Bool) (p : Puzzle) (r c : Nat) (n : Nat) :
    (trimCellV vb p r c n).1 = trimCell p r c n := by
  unfold trimCellV trimCell
  rcases hposs : p.poss r c with _ | s
  · rfl
  · simp only [trimFilterV_fst]
    rcases trimFilter p.board r c s with ⟨l, b'⟩
    rcases l with _ | ⟨v1, _ | ⟨v2, tl⟩⟩
    · rfl
    · rfl
    · dsimp only
      by_cases h : (v1 :: v2 :: tl).length < p.minPossibilities
      · rw [if_pos h, if_pos h]
      · rw [if_neg h, if_neg h]

theorem trimGoV_fst (vb : Bool) : ∀ (cells : List (Nat × Nat)) (p : Puzzle)
    (n : Nat), (trimGoV vb cells p n).1 = trimGo cells p n := by
  intro cells
  induction cells with
  | nil =>
    intro p n
    rfl
  | cons rc rest ih =>
    intro p n
    show ((if (trimCellV vb p rc.1 rc.2 n).1.1 then
        ((trimGoV vb rest (trimCellV vb p rc.1 rc.2 n).1.2.1 (trimCellV vb p rc.1 rc.2 n).1.2.2).1,
         (trimCellV vb p rc.1 rc.2 n).2 ++ (trimGoV vb rest (trimCellV vb p rc.1 rc.2 n).1.2.1 (trimCellV vb p rc.1 rc.2 n).1.2.2).2)
      else (((-1 : Int), (trimCellV vb p rc.1 rc.2 n).1.2.1), (trimCellV vb p rc.1 rc.2 n).2)).1) = _
    rw [trimCellV_fst]
    show _ = (let t := trimCell p rc.1 rc.2 n
      if t.1 then trimGo rest t.2.1 t.2.2 else (-1, t.2.1))
    by_cases h : (trimCell p rc.1 rc.2 n).1 <;> simp [h, ih]

theorem trimPossibilitiesV_fst (vb : Bool) (p : Puzzle) :
    (trimPossibilitiesV vb p).1 = trimPossibilities p := by
  unfold trimPossibilitiesV trimPossibilities
  rw [trimGoV_fst]

theorem tryCandsAuxV_fst (recV : Board → Option (Bool × Board) × List Msg)
    (recP : Board → Option (Bool × Board))
    (hrec : ∀ b', (recV b').1 = recP b') (vb : Bool) (p : Puzzle) :
    ∀ l : List Int, (tryCandsAuxV recV vb p l).1 = tryCandsAux recP p l := by
  intro l
  induction l with
  | nil => rfl
  | cons v rest ih =>
    show ((match (recV (setCell p.board p.minRow p.minCol v)).1 with
      | none => ((none : Option (Bool × Puzzle)),
          (if vb then [Msg.creatingSub v] else []) ++ (recV (setCell p.board p.minRow p.minCol v)).2)
      | some (true, solved) =>
        (some (true, { p with board := mergeBoards p.board solved }),
          (if vb then [Msg.creatingSub v] else []) ++ (recV (setCell p.board p.minRow p.minCol v)).2)
      | some (false, _) =>
        ((tryCandsAuxV recV vb p rest).1,
          (if vb then [Msg.creatingSub v] else []) ++ (recV (setCell p.board p.minRow p.minCol v)).2 ++ (tryCandsAuxV recV vb p rest).2)).1) = _
    rw [hrec]
    show _ = (match recP (setCell p.board p.minRow p.minCol v) with
      | none => none
      | some (true, solved) =>
        some (true, { p with board := mergeBoards p.board solved })
      | some (false, _) => tryCandsAux recP p rest)
    rcases recP (setCell p.board p.minRow p.minCol v) with _ | ⟨_ | _, b'⟩ <;>
      simp [ih]

theorem solveLoopAuxV_fst (recV : Board → Option (Bool × Board) × List Msg)
    (recP : Board → Option (Bool × Board))
    (hrec : ∀ b', (recV b').1 = recP b') (vb : Bool) :
    ∀ (pf : Nat) (prev : Int) (p : Puzzle),
      (solveLoopAuxV recV vb pf prev p).1 = solveLoopAux recP pf prev p := by
  intro pf
  induction pf with
  | zero =>
    intro prev p
    rfl
  | succ k ih =>
    intro prev p
    show ((if (trimPossibilitiesV vb p).1.1 = -1 then
        ((some (false, (trimPossibilitiesV vb p).1.2) : Option (Bool × Puzzle)), (trimPossibilitiesV vb p).2)
      else if (trimPossibilitiesV vb p).1.1 = 0 then
        (some (true, (trimPossibilitiesV vb p).1.2),
          (trimPossibilitiesV vb p).2 ++ [Msg.solutionBanner (trimPossibilitiesV vb p).1.2.board])
      else if (trimPossibilitiesV vb p).1.1 = prev then
        ((tryCandsAuxV recV vb (trimPossibilitiesV vb p).1.2
            (((trimPossibilitiesV vb p).1.2.poss (trimPossibilitiesV vb p).1.2.minRow (trimPossibilitiesV vb p).1.2.minCol).getD [])).1,
          (trimPossibilitiesV vb p).2 ++
            (if vb then [Msg.minInfo (trimPossibilitiesV vb p).1.2.minPossibilities (trimPossibilitiesV vb p).1.2.minRow (trimPossibilitiesV vb p).1.2.minCol] else []) ++
            (tryCandsAuxV recV vb (trimPossibilitiesV vb p).1.2
              (((trimPossibilitiesV vb p).1.2.poss (trimPossibilitiesV vb p).1.2.minRow (trimPossibilitiesV vb p).1.2.minCol).getD [])).2)
      else
        ((solveLoopAuxV recV vb k (trimPossibilitiesV vb p).1.1 (trimPossibilitiesV vb p).1.2).1,
          (trimPossibilitiesV vb p).2 ++ (solveLoopAuxV recV vb k (trimPossibilitiesV vb p).1.1 (trimPossibilitiesV vb p).1.2).2)).1) = _
    rw [trimPossibilitiesV_fst]
    show _ = (if (trimPossibilities p).1 = -1 then
        some (false, (trimPossibilities p).2)
      else if (trimPossibilities p).1 = 0 then
        some (true, (trimPossibilities p).2)
      else if (trimPossibilities p).1 = prev then
        tryCandsAux recP (trimPossibilities p).2
          (((trimPossibilities p).2.poss (trimPossibilities p).2.minRow
            (trimPossibilities p).2.minCol).getD [])
      else solveLoopAux recP k (trimPossibilities p).1 (trimPossibilities p).2)
    split_ifs <;>
      first
        | rfl
        | exact tryCandsAuxV_fst recV recP hrec vb (trimPossibilities p).2 _
        | exact ih (trimPossibilities p).1 (trimPossibilities p).2

theorem solveFV_fst : ∀ (fuel : Nat) (vb : Bool) (b : Board),
    (solveFV vb fuel b).1 = solveF fuel b := by
  intro fuel
  induction fuel with
  | zero =>
    intro vb b
    rfl
  | succ f ih =>
    intro vb b
    show ((solveLoopAuxV (solveFV false f) vb 83 50
        (setAllPossibilities (mkPuzzle b))).1.map (fun rp => (rp.1, rp.2.board))) = _
    rw [solveLoopAuxV_fst (solveFV false f) (solveF f) (fun b' => ih false b') vb]
    rfl

/-- C9: the verbose flag is a pure observer and solve is deterministic —
in the model, `solve` is a pure function of the grid, and for either
verbose setting the verbose build (with its console output modelled as a
message log) returns exactly that function's boolean and final grid; in
particular verbose and quiet runs agree. -/
theorem solve_verbose_pure_observer :
    ∀ (fuel : Nat) (b : Board),
      (solveFV true fuel b).1 = solveF fuel b ∧
      (solveFV false fuel b).1 = solveF fuel b :=
  fun fuel b => ⟨solveFV_fst fuel true b, solveFV_fst fuel false b⟩

end SudokuSolver
